import Mathlib

/-!
Verification development for the Degree-Planner scraping core
(`src/data/Scraper/scrape_requirements_raw.py`,
`src/data/Scraper/ai_parse_requirements.py`,
`src/data/Scraper/ubc_prereq_scraper.py`).

HTML documents are modelled as already-materialized flat sequences of
sibling nodes (the design notes of the spec call for exactly this
"iteration over an immutable, already-materialized ordered list"
reading of the BeautifulSoup sibling walk).  Each scraper function is
translated into an executable Lean definition, and the claims of the
specification are settled as theorems about those definitions.
-/

namespace DegreePlanner

/-! ## Python text primitives -/

/-- Python whitespace class used by `str.strip`, `str.split` and the
regex class used in `re.sub(r"\s+", ...)` (ASCII fragment). -/
def pyIsSpace (c : Char) : Bool :=
  c = ' ' || c = '\t' || c = '\n' || c = '\r' || c = '\x0b' || c = '\x0c'

/-- The ASCII upper-to-lower case table of `str.lower`. -/
def upperToLower : List (Char × Char) :=
  [('A', 'a'), ('B', 'b'), ('C', 'c'), ('D', 'd'), ('E', 'e'), ('F', 'f'),
   ('G', 'g'), ('H', 'h'), ('I', 'i'), ('J', 'j'), ('K', 'k'), ('L', 'l'),
   ('M', 'm'), ('N', 'n'), ('O', 'o'), ('P', 'p'), ('Q', 'q'), ('R', 'r'),
   ('S', 's'), ('T', 't'), ('U', 'u'), ('V', 'v'), ('W', 'w'), ('X', 'x'),
   ('Y', 'y'), ('Z', 'z')]

/-- ASCII lower-casing of one character, as `str.lower` acts on the
ASCII range. -/
def pyLower (c : Char) : Char :=
  match upperToLower.find? (fun p => p.1 = c) with
  | some p => p.2
  | none => c

/-- Collapse every run of whitespace to a single `' '`
(`re.sub(r"\s+", " ", s)`).  The flag records whether the previously
consumed character was whitespace. -/
def collapseAux : Bool → List Char → List Char
  | _, [] => []
  | prevWS, c :: rest =>
    if pyIsSpace c then
      if prevWS then collapseAux true rest
      else ' ' :: collapseAux true rest
    else c :: collapseAux false rest

def collapseWS (l : List Char) : List Char := collapseAux false l

/-- Remove a trailing run of characters satisfying `p`. -/
def dropTrailing (p : Char → Bool) (l : List Char) : List Char :=
  (l.reverse.dropWhile p).reverse

/-- Remove leading and trailing characters satisfying `p`
(Python `str.strip` with a custom class). -/
def stripBy (p : Char → Bool) (l : List Char) : List Char :=
  dropTrailing p (l.dropWhile p)

/-- Python `s.strip()` (whitespace strip, both ends). -/
def pyStrip (s : String) : String := ⟨stripBy pyIsSpace s.data⟩

/-- `normalize_text` of `ai_parse_requirements.py`:
`re.sub(r"\s+", " ", s).strip().lower()`. -/
def normalize_text (s : String) : String :=
  ⟨((stripBy pyIsSpace (collapseWS s.data)).map pyLower)⟩

/-- Python `sep.join(parts)`. -/
def pyJoin (sep : String) : List String → String
  | [] => ""
  | [x] => x
  | x :: y :: rest => x ++ sep ++ pyJoin sep (y :: rest)

/-- Python `s.split()` (split on whitespace runs, dropping empties):
worker accumulating the current word in reverse. -/
def pySplitWsAux (cur : List Char) : List Char → List (List Char)
  | [] => if cur.isEmpty then [] else [cur.reverse]
  | c :: rest =>
    if pyIsSpace c then
      if cur.isEmpty then pySplitWsAux [] rest
      else cur.reverse :: pySplitWsAux [] rest
    else pySplitWsAux (c :: cur) rest

def pySplitWs (s : String) : List String :=
  (pySplitWsAux [] s.data).map List.asString

/-- `" ".join(text.split())`, the whitespace collapse used by
`parse_course_heading`. -/
def pyJoinSplit (s : String) : String := pyJoin " " (pySplitWs s)

/-- Python substring test `pat in s` on character lists. -/
def containsSub : List Char → List Char → Bool
  | pat, [] => pat.isEmpty
  | pat, c :: rest => pat.isPrefixOf (c :: rest) || containsSub pat rest

/-- Remainder of `l` after the first occurrence of `pat`
(`l.split(pat, 1)[1]` when `pat` occurs). -/
def afterFirst (pat : List Char) : List Char → Option (List Char)
  | [] => none
  | c :: rest =>
    if pat.isPrefixOf (c :: rest) then some ((c :: rest).drop pat.length)
    else afterFirst pat rest

/-- Python `s.split("/")`: split at every slash, keeping empty pieces. -/
def splitSlashAux (cur : List Char) : List Char → List String
  | [] => [cur.reverse.asString]
  | c :: rest =>
    if c = '/' then cur.reverse.asString :: splitSlashAux [] rest
    else splitSlashAux (c :: cur) rest

def splitSlash (s : String) : List String := splitSlashAux [] s.data

/-! ## Document model

A parsed HTML page is modelled as a flat, already-materialized ordered
sequence of sibling nodes.  A `Node.nstring` is a bare
`NavigableString`; a `Node.tag` carries the tag name, the node's
`get_text(" ", strip=True)` value, the `get_text` values of its direct
`li` children (consulted only for `ul`/`ol` nodes) and its rows of
cell texts (consulted only for `table` nodes). -/

inductive Node where
  | nstring (s : String)
  | tag (name : String) (text : String) (listItems : List String)
        (tableRows : List (List String))
deriving Repr, DecidableEq

/-- A page: the optional `<title>` string (None is folded into `none`)
and the flat body node sequence. -/
structure Doc where
  title : Option String
  nodes : List Node
deriving Repr, DecidableEq

/-! ## `scrape_requirements_raw.py` -/

/-- `is_specialization_heading`: the heading text, stripped, starts
with one of the fixed program-type prefixes. -/
def is_specialization_heading (text : String) : Bool :=
  let t := pyStrip text
  ["Major", "Honours", "Combined Major", "Combined Honours", "Minor",
   "Specialization", "Specializations", "Major Programs",
   "Honours Programs"].any (fun p => p.data.isPrefixOf t.data)

/-- `is_year_heading`: the stripped text equals one of the fixed
year-of-study patterns (all the regexes are `^literal$`, and the text
has been stripped, so whole-string equality is exact). -/
def is_year_heading (text : String) : Bool :=
  let t := pyStrip text
  ["First Year", "Second Year", "Third Year", "Fourth Year",
   "Third and Fourth Years", "Years 2 and 3", "Fourth and Fifth Years",
   "First-Year Curriculum", "First Year Curriculum",
   "Second Year Program", "Third Year Program",
   "Fourth Year Program"].any (fun p => p = t)

/-- `get_faculty_from_url`, applied to the URL path component
(`urlparse` itself is external plumbing): strip slashes, split on
slashes, and take the segment after `faculties-colleges-and-schools`. -/
def get_faculty_from_url (path : String) : String :=
  let parts := splitSlash ⟨stripBy (fun c => c = '/') path.data⟩
  match parts.indexOf? "faculties-colleges-and-schools" with
  | none => ""
  | some idx => if idx + 1 < parts.length then parts.getD (idx + 1) "" else ""

/-- One per-year sub-group of raw requirement lines. -/
structure YearGroup where
  year_label : String
  raw_lines : List String
deriving Repr, DecidableEq

/-- One specialization record produced by the raw scraper. -/
structure SectionRecord where
  program_url : String
  faculty : String
  specialization_name : String
  years_raw : List YearGroup
deriving Repr, DecidableEq

/-- The flush step `if current_year is not None and current_entries:
years.append({...})` of both extraction walks. -/
def flushGroup (cy : Option String) (ce : List String) : List YearGroup :=
  match cy with
  | none => []
  | some y => if ce = [] then [] else [⟨y, ce⟩]

/-- The sibling walk of `extract_specializations_with_headings`
(state: current year label, entries collected under it).  The walk
breaks at the next `h3`/`h4` whose text is a specialization heading;
any tag whose text is a year heading flushes and opens a new
sub-group; `p`/`div`/`li` text is collected once a year is open. -/
def walkSection : List Node → Option String → List String → List YearGroup
  | [], cy, ce => flushGroup cy ce
  | .nstring _ :: rest, cy, ce => walkSection rest cy ce
  | .tag name text _ _ :: rest, cy, ce =>
    if (name = "h3" || name = "h4") && is_specialization_heading text then
      flushGroup cy ce
    else if is_year_heading text then
      flushGroup cy ce ++ walkSection rest (some text) []
    else if (name = "p" || name = "div" || name = "li") && cy.isSome then
      (if pyStrip text = "" then walkSection rest cy ce
       else walkSection rest cy (ce ++ [pyStrip text]))
    else walkSection rest cy ce

/-- Body of `extract_specializations_with_headings`: one record per
`h3`/`h4` specialization heading, whose years come from the sibling
walk starting immediately after that heading. -/
def extractSpecsGo (url : String) : List Node → List SectionRecord
  | [] => []
  | .nstring _ :: rest => extractSpecsGo url rest
  | .tag name text _ _ :: rest =>
    if (name = "h3" || name = "h4") && is_specialization_heading text then
      ⟨url, get_faculty_from_url url, text, walkSection rest none []⟩
        :: extractSpecsGo url rest
    else extractSpecsGo url rest

def extract_specializations_with_headings (doc : Doc) (url : String) :
    List SectionRecord :=
  extractSpecsGo url doc.nodes

/-- The whole-page fallback walk of
`extract_single_specialization_fallback`: identical to `walkSection`
except that no heading ever breaks the loop.  (The `visited` identity
set of the source is loop safety for malformed trees; a flat forward
sequence never revisits a node, so it has no observable effect here.) -/
def walkFallback : List Node → Option String → List String → List YearGroup
  | [], cy, ce => flushGroup cy ce
  | .nstring _ :: rest, cy, ce => walkFallback rest cy ce
  | .tag name text _ _ :: rest, cy, ce =>
    if is_year_heading text then
      flushGroup cy ce ++ walkFallback rest (some text) []
    else if (name = "p" || name = "div" || name = "li") && cy.isSome then
      (if pyStrip text = "" then walkFallback rest cy ce
       else walkFallback rest cy (ce ++ [pyStrip text]))
    else walkFallback rest cy ce

/-- `soup.find("h1")`: the first `h1` node's text together with the
sibling sequence after it, if an `h1` exists. -/
def firstH1 : List Node → Option (String × List Node)
  | [] => none
  | .tag "h1" text _ _ :: rest => some (text, rest)
  | _ :: rest => firstH1 rest

/-- Fallback section name: the `h1` text, else the truthy `<title>`
string stripped, else the literal `"Program"`. -/
def fallbackName (doc : Doc) : String :=
  match firstH1 doc.nodes with
  | some (text, _) => text
  | none =>
    match doc.title with
    | some t => if t = "" then "Program" else pyStrip t
    | none => "Program"

/-- `extract_single_specialization_fallback`: the whole page as one
specialization; the walk starts after the `h1` when there is one,
else at the first body node. -/
def extract_single_specialization_fallback (doc : Doc) (url : String) :
    List SectionRecord :=
  let start :=
    match firstH1 doc.nodes with
    | some (_, rest) => rest
    | none => doc.nodes
  [⟨url, get_faculty_from_url url, fallbackName doc,
    walkFallback start none []⟩]

/-- `extract_specializations_raw`: heading-based extraction first,
whole-page fallback when it yields no record. -/
def extract_specializations_raw (doc : Doc) (url : String) :
    List SectionRecord :=
  let specs := extract_specializations_with_headings doc url
  if specs = [] then extract_single_specialization_fallback doc url
  else specs

/-! ## `ai_parse_requirements.py`: heading matcher -/

/-- Matching condition of `find_specialization_heading`:
`target == text or target in text or text in target`, on normalized
texts.  (The loop additionally skips headings whose normalized text is
empty before this test is reached.) -/
def headMatches (target text : String) : Bool :=
  target = text || containsSub target.data text.data
    || containsSub text.data target.data

/-- `abs(len(text) - len(target))`. -/
def matchScore (target text : String) : Nat :=
  ((text.length : Int) - (target.length : Int)).natAbs

/-- The selection loop of `find_specialization_heading` over the
normalized heading texts, carrying the running `(index, score)` best
candidate; replacement only on strictly smaller score. -/
def findBestAux (target : String) :
    List String → Nat → Option (Nat × Nat) → Option (Nat × Nat)
  | [], _, best => best
  | h :: rest, i, best =>
    if normalize_text h = "" then findBestAux target rest (i + 1) best
    else if headMatches target (normalize_text h) then
      match best with
      | none => findBestAux target rest (i + 1)
          (some (i, matchScore target (normalize_text h)))
      | some (bi, bs) =>
        if matchScore target (normalize_text h) < bs then
          findBestAux target rest (i + 1)
            (some (i, matchScore target (normalize_text h)))
        else findBestAux target rest (i + 1) (some (bi, bs))
    else findBestAux target rest (i + 1) best

/-- `find_specialization_heading` on the document-ordered list of
`h2`/`h3`/`h4` heading texts: the index of the best-matching heading. -/
def find_specialization_heading (headings : List String) (name : String) :
    Option Nat :=
  (findBestAux (normalize_text name) headings 0 none).map Prod.fst

/-! ## `ai_parse_requirements.py`: block segmenter -/

/-- `is_block_terminator`: any `h2`/`h3`/`h4` tag. -/
def is_block_terminator : Node → Bool
  | .tag name _ _ _ => name = "h2" || name = "h3" || name = "h4"
  | .nstring _ => false

/-- One table row: `" | ".join(c for c in cells if c)`, skipped when
the join is empty. -/
def rowLine (cells : List String) : Option String :=
  if pyJoin " | " (cells.filter (fun c => c ≠ "")) = "" then none
  else some (pyJoin " | " (cells.filter (fun c => c ≠ "")))

/-- All lines contributed by one table node. -/
def tableLines (rows : List (List String)) : List String :=
  rows.filterMap rowLine

/-- Lines contributed by one non-terminating node of the block walk:
paragraph/div text, direct list-item texts, table rows. -/
def collectNode : Node → List String
  | .nstring _ => []
  | .tag name text listItems tableRows =>
    (if name = "p" || name = "div" then
       (if text = "" then [] else [text]) else [])
      ++ (if name = "ul" || name = "ol" then
            listItems.filter (fun t => t ≠ "") else [])
      ++ (if name = "table" then tableLines tableRows else [])

/-- The sibling loop of `extract_requirement_lines_from_block`: walk
forward, stop (exclusive) at the first block terminator, collect
lines from every other node. -/
def rawWalk : List Node → List String
  | [] => []
  | .nstring _ :: rest => rawWalk rest
  | n :: rest =>
    if is_block_terminator n then []
    else collectNode n ++ rawWalk rest

/-- The post-processing loop of `extract_requirement_lines_from_block`:
strip each line, drop lines shorter than 3 characters, drop lines
already seen. -/
def cleanLines (seen : List String) : List String → List String
  | [] => []
  | ln :: rest =>
    if (pyStrip ln).length < 3 then cleanLines seen rest
    else if seen.contains (pyStrip ln) then cleanLines seen rest
    else pyStrip ln :: cleanLines (pyStrip ln :: seen) rest

/-- `extract_requirement_lines_from_block`, taking the sibling
sequence that follows the start heading. -/
def extract_requirement_lines_from_block (siblings : List Node) :
    List String :=
  cleanLines [] (rawWalk siblings)

/-- Texts of all `h2`/`h3`/`h4` nodes, in document order
(`soup.find_all(["h2", "h3", "h4"])`). -/
def headingTexts : List Node → List String
  | [] => []
  | .tag name text _ _ :: rest =>
    if name = "h2" || name = "h3" || name = "h4" then
      text :: headingTexts rest
    else headingTexts rest
  | .nstring _ :: rest => headingTexts rest

/-- Positions (in the body sequence) of all `h2`/`h3`/`h4` nodes, in
document order. -/
def headingPositions : List Node → List Nat
  | [] => []
  | .tag name _ _ _ :: rest =>
    if name = "h2" || name = "h3" || name = "h4" then
      0 :: (headingPositions rest).map (· + 1)
    else (headingPositions rest).map (· + 1)
  | .nstring _ :: rest => (headingPositions rest).map (· + 1)

/-- `find_specialization_heading` at document level: the body position
of the chosen heading node. -/
def find_heading_node (nodes : List Node) (name : String) : Option Nat :=
  (find_specialization_heading (headingTexts nodes) name).bind
    (fun k => (headingPositions nodes).get? k)

/-! ## `ai_parse_requirements.py`: per-record pipeline -/

/-- Input record of `process_specialization` (the fields it reads). -/
structure SpecIn where
  program_url : String
  specialization_name : String
deriving Repr, DecidableEq

/-- The oracle's decoded JSON object: the optional `"requirements"`
key, items kept opaque (type `α`). -/
structure OracleOut (α : Type) where
  requirements : Option (List α)

/-- Output record of `process_specialization`. -/
structure SpecOut (α : Type) where
  program_url : String
  specialization_name : String
  requirements_raw : List String
  requirements_parsed : Option (List α)

/-- `process_specialization`: fetch (modelled by `fetcher`, which
fails like `requests` by exception), match the heading, extract the
raw block lines, and — when AI parsing is on and lines were found —
call the oracle, recording `None` on any oracle exception. -/
def process_specialization {α : Type}
    (fetcher : String → Except String Doc)
    (oracle : List String → Except String (OracleOut α))
    (useAI : Bool) (spec : SpecIn) : SpecOut α :=
  match fetcher spec.program_url with
  | .error _ => ⟨spec.program_url, spec.specialization_name, [], none⟩
  | .ok doc =>
    match find_heading_node doc.nodes spec.specialization_name with
    | none => ⟨spec.program_url, spec.specialization_name, [], none⟩
    | some i =>
      let raw := extract_requirement_lines_from_block (doc.nodes.drop (i + 1))
      let parsed :=
        if useAI && !raw.isEmpty then
          match oracle raw with
          | .ok p => some (p.requirements.getD [])
          | .error _ => none
        else none
      ⟨spec.program_url, spec.specialization_name, raw, parsed⟩

/-- The batch loop of `main`: every record is processed independently
and appended to the output. -/
def processBatch {α : Type}
    (fetcher : String → Except String Doc)
    (oracle : List String → Except String (OracleOut α))
    (useAI : Bool) (specs : List SpecIn) : List (SpecOut α) :=
  specs.map (process_specialization fetcher oracle useAI)

/-! ## `ubc_prereq_scraper.py` -/

def isUpperAscii (c : Char) : Bool := 'A' ≤ c && c ≤ 'Z'

def isDigitAscii (c : Char) : Bool := '0' ≤ c && c ≤ '9'

/-- The five capture groups of the course-heading regex. -/
structure CourseHeadingMatch where
  subject : String
  campus : String
  number : String
  credits : String
  title : String
deriving Repr, DecidableEq

/-- Greedy mandatory character-class run (`[A-Z]+`, `\s+`, `\d+`):
the maximal run and the remainder, failing on an empty run. -/
def reqTake (p : Char → Bool) (l : List Char) :
    Option (List Char × List Char) :=
  if (l.takeWhile p).isEmpty then none
  else some (l.takeWhile p, l.drop (l.takeWhile p).length)

/-- Optional single character of a class (`[A-Z]?`). -/
def optChar (p : Char → Bool) (l : List Char) : List Char × List Char :=
  match l with
  | c :: rest => if p c then ([c], rest) else ([], l)
  | [] => ([], l)

/-- One mandatory literal character (`\(`, `\)`). -/
def reqChar (c : Char) (l : List Char) : Option (List Char) :=
  match l with
  | d :: rest => if d = c then some rest else none
  | [] => none

/-- Deterministic parser for
`([A-Z]+)(_V)?\s+(\d+[A-Z]?)\s+\((\d+)\)\s+(.*)` under `re.match`
(anchored at the start; every boundary in the pattern separates
disjoint character classes, so the greedy reading is exact; the input
has been whitespace-collapsed so `.` never meets a newline). -/
def parseCourseRegex (l : List Char) : Option CourseHeadingMatch :=
  match reqTake isUpperAscii l with
  | none => none
  | some (subj, r1) =>
    match reqTake pyIsSpace
        (if ['_', 'V'].isPrefixOf r1 then r1.drop 2 else r1) with
    | none => none
    | some (_, r3) =>
      match reqTake isDigitAscii r3 with
      | none => none
      | some (digs, r4) =>
        match reqTake pyIsSpace (optChar isUpperAscii r4).2 with
        | none => none
        | some (_, r6) =>
          match reqChar '(' r6 with
          | none => none
          | some r7 =>
            match reqTake isDigitAscii r7 with
            | none => none
            | some (creds, r8) =>
              match reqChar ')' r8 with
              | none => none
              | some r9 =>
                match reqTake pyIsSpace r9 with
                | none => none
                | some (_, r10) =>
                  some ⟨subj.asString,
                        (if ['_', 'V'].isPrefixOf r1 then ['_', 'V']
                          else ([] : List Char)).asString,
                        (digs ++ (optChar isUpperAscii r4).1).asString,
                        creds.asString, r10.asString⟩

/-- The parsed-heading record of `parse_course_heading`. -/
structure CourseMeta where
  subject : Option String
  campus_suffix : Option String
  number : Option String
  credits : Option String
  title : String
deriving Repr, DecidableEq

/-- `parse_course_heading`: collapse whitespace, run the regex;
on a miss, the record carries the collapsed text as title and null
fields; on a hit, the groups (with `campus_suffix or ""` folding the
missing group to the empty string, and the title stripped). -/
def parse_course_heading (h3_text : String) : CourseMeta :=
  match parseCourseRegex (pyJoinSplit h3_text).data with
  | none => ⟨none, none, none, none, pyJoinSplit h3_text⟩
  | some m =>
    ⟨some m.subject, some m.campus, some m.number, some m.credits,
     pyStrip m.title⟩

/-- The full course record assembled by `extract_course_block`. -/
structure Course where
  subject : Option String
  campus_suffix : Option String
  course_number : Option String
  credits : Option String
  title : String
  description : String
  prerequisite_raw : Option String
  corequisite_raw : Option String
  exclusion_raw : Option String
deriving Repr, DecidableEq

/-- Text after the first occurrence of `pat`, stripped
(`text.split(pat, 1)[1].strip()`); `none` when `pat` does not occur. -/
def splitAfter (pat : String) (text : String) : Option String :=
  (afterFirst pat.data text.data).map (fun l => pyStrip ⟨l⟩)

/-- The sibling accumulation loop of `extract_course_block`: walk tag
siblings until the next `h3`, collecting `p`/`div`/`li` texts and the
last-seen prerequisite / corequisite / exclusion markers. -/
def collectBlock :
    List Node → List String × Option String × Option String × Option String
  | [] => ([], none, none, none)
  | .nstring _ :: rest => collectBlock rest
  | .tag name text _ _ :: rest =>
    if name = "h3" then ([], none, none, none)
    else if (name = "p" || name = "div" || name = "li") && text ≠ "" then
      let (parts, pr, co, ex) := collectBlock rest
      let prHere := splitAfter "Prerequisite:" text
      let coHere := splitAfter "Corequisite:" text
      let exHere :=
        if containsSub "Credit will only be granted for one of".data text.data
            || containsSub "Credit will be granted for only one of".data
                 text.data then
          some text
        else none
      (text :: parts,
       (match pr with | some v => some v | none => prHere),
       (match co with | some v => some v | none => coHere),
       (match ex with | some v => some v | none => exHere))
    else collectBlock rest

/-- `extract_course_block`, taking the heading text and the sibling
sequence after the heading. -/
def extract_course_block (h3_text : String) (rest : List Node) : Course :=
  let meta := parse_course_heading h3_text
  let cb := collectBlock rest
  ⟨meta.subject, meta.campus_suffix, meta.number, meta.credits, meta.title,
   pyStrip (pyJoin " " cb.1), cb.2.1, cb.2.2.1, cb.2.2.2⟩

/-- `re.search(r"\d", text)`: the text contains a digit. -/
def containsDigit (s : String) : Bool := s.data.any isDigitAscii

/-- `parse_subject_page` over the flat body sequence: for every `h3`
whose text contains a digit, build the course block; keep the record
only when its course number is truthy. -/
def parse_subject_page : List Node → List Course
  | [] => []
  | .nstring _ :: rest => parse_subject_page rest
  | .tag name text _ _ :: rest =>
    if name = "h3" && containsDigit text then
      (if (extract_course_block text rest).course_number.getD "" ≠ "" then
        extract_course_block text rest :: parse_subject_page rest
      else parse_subject_page rest)
    else parse_subject_page rest

/-- The same traversal without the truthiness filter: every candidate
course block parsed from a digit-bearing `h3`. -/
def course_candidates : List Node → List Course
  | [] => []
  | .nstring _ :: rest => course_candidates rest
  | .tag name text _ _ :: rest =>
    if name = "h3" && containsDigit text then
      extract_course_block text rest :: course_candidates rest
    else course_candidates rest

/-- Specification-side restatement of the first-occurrence dedup with
minimum length 3 performed by the cleaning loop: keep a (long enough)
line and delete its later duplicates before recursing. -/
def firstKeep : List String → List String
  | [] => []
  | s :: rest =>
    if 3 ≤ s.length then s :: firstKeep (rest.filter (fun t => t ≠ s))
    else firstKeep rest
termination_by l => l.length
decreasing_by
  · simp only [List.length_cons]
    exact Nat.lt_succ_of_le (List.length_filter_le _ _)
  · simp only [List.length_cons]
    exact Nat.lt_succ_self _

/-- A node acting as a year (SubBoundary) marker in the raw scraper's
walks: any tag whose text passes `is_year_heading`. -/
def yearTag : Node → Bool
  | .tag _ text _ _ => is_year_heading text
  | .nstring _ => false

/-- A node breaking the multi-section walk: an `h3`/`h4` tag whose
text is a specialization heading. -/
def sectionBreakTag : Node → Bool
  | .tag name text _ _ =>
    (name = "h3" || name = "h4") && is_specialization_heading text
  | .nstring _ => false

/-- Two adjacent characters are not both whitespace. -/
def noWsPair (a b : Char) : Prop := pyIsSpace a = false ∨ pyIsSpace b = false

/-- The shape invariant of collapsed text: every whitespace character
is a plain space and no two adjacent characters are both whitespace. -/
def wsOk (l : List Char) : Prop :=
  (∀ c ∈ l, pyIsSpace c = true → c = ' ') ∧ List.Chain' noWsPair l

/-- A heading is considered at all by `find_specialization_heading`
when its normalized text is non-empty and satisfies the fuzzy match
condition against the normalized target. -/
def isCandidate (target h : String) : Bool :=
  if normalize_text h = "" then false
  else headMatches target (normalize_text h)

/-- Left-biased best-candidate merge: the right candidate wins only on
a strictly smaller score, mirroring `score < best_score`. -/
def combineBest :
    Option (Nat × Nat) → Option (Nat × Nat) → Option (Nat × Nat)
  | none, c => c
  | some b, none => some b
  | some b, some c => if c.2 < b.2 then some c else some b

/-- Specification-side recursive form of the selection loop: the best
`(index, score)` among the candidates of the list starting at index
`i`, with ties resolved to the earliest candidate. -/
def bestOf (target : String) : List String → Nat → Option (Nat × Nat)
  | [], _ => none
  | h :: rest, i =>
    if normalize_text h = "" then bestOf target rest (i + 1)
    else if headMatches target (normalize_text h) then
      combineBest (some (i, matchScore target (normalize_text h)))
        (bestOf target rest (i + 1))
    else bestOf target rest (i + 1)

/-- State of the `while node:` loop of
`extract_requirement_lines_from_block`: the cursor position in the
sibling sequence together with the lines collected so far, or the
halted state carrying the final collected lines. -/
inductive WalkState where
  | running (i : Nat) (acc : List String)
  | halted (acc : List String)
deriving Repr, DecidableEq

/-- One iteration of the loop: the loop exits when the cursor has
fallen off the sequence (`node` is `None`) or the node under the
cursor is a block terminator; otherwise it collects the node's lines
and moves to the next sibling. -/
def walkStep (nodes : List Node) : WalkState → WalkState
  | .halted acc => .halted acc
  | .running i acc =>
    match nodes[i]? with
    | none => .halted acc
    | some n =>
      if is_block_terminator n then .halted acc
      else .running (i + 1) (acc ++ collectNode n)

/-! ## Lemmas: character level -/

theorem pyLower_pyLower (c : Char) : pyLower (pyLower c) = pyLower c := by
  rcases hf : upperToLower.find? (fun p => p.1 = c) with _ | p
  · have h1 : pyLower c = c := by unfold pyLower; rw [hf]
    rw [h1, h1]
  · have h1 : pyLower c = p.2 := by unfold pyLower; rw [hf]
    have hmem : p ∈ upperToLower := List.mem_of_find?_eq_some hf
    have hkeys : ∀ p ∈ upperToLower, ∀ q ∈ upperToLower, q.1 ≠ p.2 := by
      decide
    have h2 : pyLower p.2 = p.2 := by
      unfold pyLower
      rw [List.find?_eq_none.mpr (fun q hq => by
        simpa using hkeys p hmem q hq)]
    rw [h1, h2]

theorem pyIsSpace_pyLower (c : Char) :
    pyIsSpace (pyLower c) = pyIsSpace c := by
  rcases hf : upperToLower.find? (fun p => p.1 = c) with _ | p
  · have h1 : pyLower c = c := by unfold pyLower; rw [hf]
    rw [h1]
  · have h1 : pyLower c = p.2 := by unfold pyLower; rw [hf]
    have hmem : p ∈ upperToLower := List.mem_of_find?_eq_some hf
    have hc : p.1 = c := by simpa using List.find?_some hf
    have hws : ∀ p ∈ upperToLower,
        pyIsSpace p.1 = false ∧ pyIsSpace p.2 = false := by decide
    rw [h1, ← hc, (hws p hmem).1, (hws p hmem).2]

/-! ## Lemmas: whitespace shape of normalized text -/

theorem head?_collapseAux_true (l : List Char) :
    ∀ c, (collapseAux true l).head? = some c → pyIsSpace c = false := by
  induction l with
  | nil => intro c h; simp [collapseAux] at h
  | cons a rest ih =>
    intro c h
    by_cases ha : pyIsSpace a
    · rw [collapseAux, if_pos ha] at h
      exact ih c (by simpa using h)
    · rw [collapseAux, if_neg ha] at h
      simp only [List.head?_cons, Option.some.injEq] at h
      rw [← h]
      simpa using ha

theorem mem_collapseAux_space (l : List Char) (b : Bool) :
    ∀ c ∈ collapseAux b l, pyIsSpace c = true → c = ' ' := by
  induction l generalizing b with
  | nil => intro c hc; simp [collapseAux] at hc
  | cons a rest ih =>
    intro c hc hws
    by_cases ha : pyIsSpace a
    · rw [collapseAux, if_pos ha] at hc
      cases b with
      | true => exact ih true c hc hws
      | false =>
        rw [if_neg (by simp)] at hc
        rcases List.mem_cons.mp hc with rfl | hc
        · rfl
        · exact ih true c hc hws
    · rw [collapseAux, if_neg ha] at hc
      rcases List.mem_cons.mp hc with rfl | hc
      · exact absurd hws (by simpa using ha)
      · exact ih false c hc hws

theorem chain'_collapseAux (l : List Char) (b : Bool) :
    List.Chain' noWsPair (collapseAux b l) := by
  induction l generalizing b with
  | nil => simp [collapseAux]
  | cons a rest ih =>
    by_cases ha : pyIsSpace a
    · rw [collapseAux, if_pos ha]
      cases b with
      | true => exact ih true
      | false =>
        rw [if_neg (by simp)]
        refine List.chain'_cons'.mpr ⟨?_, ih true⟩
        intro y hy
        exact Or.inr (head?_collapseAux_true rest y hy)
    · rw [collapseAux, if_neg ha]
      refine List.chain'_cons'.mpr ⟨?_, ih false⟩
      intro y _
      exact Or.inl (by simpa using ha)

theorem wsOk_collapseWS (l : List Char) : wsOk (collapseWS l) :=
  ⟨mem_collapseAux_space l false, chain'_collapseAux l false⟩

theorem isPrefix_dropTrailing (p : Char → Bool) (l : List Char) :
    dropTrailing p l <+: l := by
  apply List.reverse_suffix.mp
  simpa [dropTrailing] using List.dropWhile_suffix (l := l.reverse) p

theorem wsOk_stripBy (l : List Char) (h : wsOk l) :
    wsOk (stripBy pyIsSpace l) := by
  obtain ⟨hmem, hch⟩ := h
  have hsuf : l.dropWhile pyIsSpace <:+ l := List.dropWhile_suffix pyIsSpace
  have hpre : stripBy pyIsSpace l <+: l.dropWhile pyIsSpace :=
    isPrefix_dropTrailing pyIsSpace (l.dropWhile pyIsSpace)
  constructor
  · intro c hc hws
    exact hmem c (hsuf.subset (hpre.subset hc)) hws
  · exact List.Chain'.prefix (List.Chain'.suffix hch hsuf) hpre

theorem wsOk_map_pyLower (l : List Char) (h : wsOk l) :
    wsOk (l.map pyLower) := by
  obtain ⟨hmem, hch⟩ := h
  constructor
  · intro c hc hws
    rcases List.mem_map.mp hc with ⟨a, ha, rfl⟩
    have : pyIsSpace a = true := by rw [← pyIsSpace_pyLower]; exact hws
    have haS : a = ' ' := hmem a ha this
    subst haS
    rfl
  · refine (List.chain'_map pyLower).mpr (hch.imp ?_)
    intro a b hab
    rcases hab with hab | hab
    · exact Or.inl (by rw [pyIsSpace_pyLower]; exact hab)
    · exact Or.inr (by rw [pyIsSpace_pyLower]; exact hab)

theorem head?_dropWhile_false (p : Char → Bool) (l : List Char) :
    ∀ c, (l.dropWhile p).head? = some c → p c = false := by
  induction l with
  | nil => intro c h; simp at h
  | cons a rest ih =>
    intro c h
    by_cases ha : p a
    · rw [List.dropWhile_cons, if_pos ha] at h
      exact ih c h
    · rw [List.dropWhile_cons, if_neg ha] at h
      simp only [List.head?_cons, Option.some.injEq] at h
      rw [← h]
      simpa using ha

theorem head?_stripBy_false (p : Char → Bool) (l : List Char) :
    ∀ c, (stripBy p l).head? = some c → p c = false := by
  intro c h
  have hpre : stripBy p l <+: l.dropWhile p :=
    isPrefix_dropTrailing p (l.dropWhile p)
  rcases hpre with ⟨t, ht⟩
  have hne : stripBy p l ≠ [] := by
    intro hnil
    rw [hnil] at h
    simp at h
  have : (l.dropWhile p).head? = some c := by
    rw [← ht]
    rcases hl : stripBy p l with _ | ⟨x, xs⟩
    · exact absurd hl hne
    · rw [hl] at h
      simpa using h
  exact head?_dropWhile_false p l c this

theorem getLast?_stripBy_false (p : Char → Bool) (l : List Char) :
    ∀ c, (stripBy p l).getLast? = some c → p c = false := by
  intro c h
  have : ((l.dropWhile p).reverse.dropWhile p).head? = some c := by
    have := List.getLast?_reverse ((l.dropWhile p).reverse.dropWhile p)
    rw [← this]
    simpa [stripBy, dropTrailing] using h
  exact head?_dropWhile_false p (l.dropWhile p).reverse c this

theorem dropWhile_eq_self_of_head? (p : Char → Bool) (l : List Char)
    (h : ∀ c, l.head? = some c → p c = false) : l.dropWhile p = l := by
  cases l with
  | nil => rfl
  | cons a rest =>
    rw [List.dropWhile_cons, if_neg (by simp [h a rfl])]

theorem stripBy_eq_self (p : Char → Bool) (l : List Char)
    (hh : ∀ c, l.head? = some c → p c = false)
    (hl : ∀ c, l.getLast? = some c → p c = false) :
    stripBy p l = l := by
  unfold stripBy dropTrailing
  rw [dropWhile_eq_self_of_head? p l hh,
    dropWhile_eq_self_of_head? p l.reverse (by
      intro c hc
      exact hl c (by rwa [List.head?_reverse] at hc))]
  exact List.reverse_reverse l

theorem collapseAux_eq_self (l : List Char) (h : wsOk l) :
    collapseAux false l = l ∧
      ((∀ c, l.head? = some c → pyIsSpace c = false) →
        collapseAux true l = l) := by
  induction l with
  | nil => exact ⟨rfl, fun _ => rfl⟩
  | cons a rest ih =>
    obtain ⟨hmem, hch⟩ := h
    obtain ⟨hhead, hch'⟩ := List.chain'_cons'.mp hch
    have hrest : wsOk rest :=
      ⟨fun c hc => hmem c (List.mem_cons_of_mem a hc), hch'⟩
    obtain ⟨ihf, iht⟩ := ih hrest
    by_cases ha : pyIsSpace a
    · have haS : a = ' ' := hmem a (List.mem_cons_self a rest) (by simpa using ha)
      have hresthead : ∀ c, rest.head? = some c → pyIsSpace c = false := by
        intro c hc
        rcases hhead c hc with hc' | hc'
        · simp [ha] at hc'
        · exact hc'
      constructor
      · rw [collapseAux, if_pos ha, if_neg (by simp), haS, iht hresthead]
      · intro hfalse
        simp [hfalse a rfl] at ha
    · constructor
      · rw [collapseAux, if_neg ha, ihf]
      · intro _
        rw [collapseAux, if_neg ha, ihf]

/-! ## C4: idempotence of the text normalizer -/

theorem wsOk_normalize (s : String) : wsOk (normalize_text s).data :=
  wsOk_map_pyLower _ (wsOk_stripBy _ (wsOk_collapseWS s.data))

theorem head?_normalize_false (s : String) :
    ∀ c, (normalize_text s).data.head? = some c → pyIsSpace c = false := by
  intro c h
  unfold normalize_text at h
  simp only [List.head?_map] at h
  rcases hd : (stripBy pyIsSpace (collapseWS s.data)).head? with _ | d
  · rw [hd] at h; simp at h
  · rw [hd] at h
    have h2 : pyLower d = c := by simpa using h
    rw [← h2, pyIsSpace_pyLower]
    exact head?_stripBy_false pyIsSpace _ d hd

theorem getLast?_normalize_false (s : String) :
    ∀ c, (normalize_text s).data.getLast? = some c → pyIsSpace c = false := by
  intro c h
  unfold normalize_text at h
  simp only [List.getLast?_map] at h
  rcases hd : (stripBy pyIsSpace (collapseWS s.data)).getLast? with _ | d
  · rw [hd] at h; simp at h
  · rw [hd] at h
    have h2 : pyLower d = c := by simpa using h
    rw [← h2, pyIsSpace_pyLower]
    exact getLast?_stripBy_false pyIsSpace _ d hd

/-- C4.  The text normalizer of `ai_parse_requirements.normalize_text`
(collapse whitespace runs to one space, strip, lower-case) is
idempotent: normalizing an already-normalized string is the identity. -/
theorem normalize_text_idempotent (s : String) :
    normalize_text (normalize_text s) = normalize_text s := by
  set t := normalize_text s with ht
  have hws : wsOk t.data := wsOk_normalize s
  have hcol : collapseWS t.data = t.data :=
    (collapseAux_eq_self t.data hws).1
  have hstrip : stripBy pyIsSpace t.data = t.data :=
    stripBy_eq_self pyIsSpace t.data (head?_normalize_false s)
      (getLast?_normalize_false s)
  show (⟨(stripBy pyIsSpace (collapseWS t.data)).map pyLower⟩ : String) = t
  rw [hcol, hstrip]
  have hmap : t.data.map pyLower = t.data := by
    have : t.data.map pyLower =
        (stripBy pyIsSpace (collapseWS s.data)).map (fun c =>
          pyLower (pyLower c)) := by
      rw [ht]
      show ((stripBy pyIsSpace (collapseWS s.data)).map pyLower).map pyLower
          = _
      rw [List.map_map]
      rfl
    rw [this]
    have : (stripBy pyIsSpace (collapseWS s.data)).map (fun c =>
        pyLower (pyLower c)) =
        (stripBy pyIsSpace (collapseWS s.data)).map pyLower := by
      apply List.map_congr_left
      intro a _
      exact pyLower_pyLower a
    rw [this, ht]
    rfl
  rw [hmap]

/-! ## C5: table-row flattening -/

theorem length_zero_eq_empty (s : String) (h : s.length = 0) : s = "" := by
  cases s with
  | mk data =>
    cases data with
    | nil => rfl
    | cons a l => simp [String.length] at h

theorem pyJoin_cons_ne_empty (sep x : String) (xs : List String)
    (hx : x ≠ "") : pyJoin sep (x :: xs) ≠ "" := by
  cases xs with
  | nil => simpa [pyJoin] using hx
  | cons y ys =>
    intro h
    have hlen := congrArg String.length h
    have h0 : ("" : String).length = 0 := rfl
    simp only [pyJoin, String.length_append, h0] at hlen
    exact hx (length_zero_eq_empty x (by omega))

theorem rowLine_of_nonempty_cell (cells : List String)
    (h : ∃ c ∈ cells, c ≠ "") :
    rowLine cells = some (pyJoin " | " (cells.filter (fun c => c ≠ ""))) := by
  obtain ⟨c, hc, hne⟩ := h
  have hmem : c ∈ cells.filter (fun c => c ≠ "") :=
    List.mem_filter.mpr ⟨hc, by simpa using hne⟩
  unfold rowLine
  rcases hf : cells.filter (fun c => c ≠ "") with _ | ⟨x, xs⟩
  · rw [hf] at hmem; simp at hmem
  · have hx : x ≠ "" := by
      have hxmem : x ∈ cells.filter (fun c => c ≠ "") := by
        rw [hf]; exact List.mem_cons_self x xs
      simpa using List.of_mem_filter hxmem
    rw [if_neg (pyJoin_cons_ne_empty " | " x xs hx)]

/-- C5.  Each table row encountered by the block segmenter yields
exactly one RawLine, the `" | "`-join of its non-empty cells; a row
with no non-empty cell yields none; the concrete row
`["CPSC 110", "", "3"]` yields `"CPSC 110 | 3"`; and a table node
contributes exactly the per-row lines. -/
theorem table_rows_flattening :
    (∀ cells : List String, (∃ c ∈ cells, c ≠ "") →
      rowLine cells = some (pyJoin " | " (cells.filter (fun c => c ≠ "")))) ∧
    (∀ cells : List String, (∀ c ∈ cells, c = "") → rowLine cells = none) ∧
    rowLine ["CPSC 110", "", "3"] = some "CPSC 110 | 3" ∧
    (∀ text listItems rows,
      collectNode (.tag "table" text listItems rows) = rows.filterMap rowLine) := by
  refine ⟨rowLine_of_nonempty_cell, ?_, by decide, ?_⟩
  · intro cells h
    unfold rowLine
    have hf : cells.filter (fun c => c ≠ "") = [] := by
      apply List.filter_eq_nil_iff.mpr
      intro a ha
      simpa using h a ha
    rw [hf]
    rfl
  · intro text listItems rows
    rfl

theorem table_rows_flattening_witness :
    rowLine ["CPSC 110", "", "3"] = some "CPSC 110 | 3" ∧
    rowLine ["", ""] = none ∧
    rowLine ["CPSC 110", "", "3"]
      = some (pyJoin " | " (["CPSC 110", "", "3"].filter (fun c => c ≠ ""))) :=
  ⟨table_rows_flattening.2.2.1,
   table_rows_flattening.2.1 ["", ""] (by decide),
   table_rows_flattening.1 ["CPSC 110", "", "3"]
     ⟨"CPSC 110", by decide, by decide⟩⟩

/-! ## C2: cleaning invariant of the block segmenter -/

theorem pyStrip_idem (s : String) : pyStrip (pyStrip s) = pyStrip s := by
  show (⟨stripBy pyIsSpace (stripBy pyIsSpace s.data)⟩ : String) = _
  rw [stripBy_eq_self pyIsSpace _ (head?_stripBy_false pyIsSpace s.data)
    (getLast?_stripBy_false pyIsSpace s.data)]
  rfl

theorem firstKeep_sublist (l : List String) :
    List.Sublist (firstKeep l) l := by
  induction l using firstKeep.induct with
  | case1 => simp [firstKeep]
  | case2 s rest h ih =>
    rw [firstKeep, if_pos h]
    exact List.Sublist.cons₂ s (ih.trans (List.filter_sublist rest))
  | case3 s rest h ih =>
    rw [firstKeep, if_neg h]
    exact ih.trans (List.sublist_cons_self s rest)

theorem mem_firstKeep_length (l : List String) :
    ∀ x ∈ firstKeep l, 3 ≤ x.length := by
  induction l using firstKeep.induct with
  | case1 => intro x hx; simp [firstKeep] at hx
  | case2 s rest h ih =>
    intro x hx
    rw [firstKeep, if_pos h] at hx
    rcases List.mem_cons.mp hx with rfl | hx
    · exact h
    · exact ih x hx
  | case3 s rest h ih =>
    intro x hx
    rw [firstKeep, if_neg h] at hx
    exact ih x hx

theorem firstKeep_nodup (l : List String) : (firstKeep l).Nodup := by
  induction l using firstKeep.induct with
  | case1 => simp [firstKeep]
  | case2 s rest h ih =>
    rw [firstKeep, if_pos h]
    refine List.Nodup.cons ?_ ih
    intro hmem
    have := (firstKeep_sublist (rest.filter (fun t => t ≠ s))).subset hmem
    simpa using List.of_mem_filter this
  | case3 s rest h ih =>
    rw [firstKeep, if_neg h]
    exact ih

theorem mem_firstKeep_of_mem (l : List String) :
    ∀ x ∈ l, 3 ≤ x.length → x ∈ firstKeep l := by
  induction l using firstKeep.induct with
  | case1 => intro x hx; simp at hx
  | case2 s rest h ih =>
    intro x hx hlen
    rw [firstKeep, if_pos h]
    rcases List.mem_cons.mp hx with rfl | hx
    · exact List.mem_cons_self x _
    · by_cases hxs : x = s
      · subst hxs; exact List.mem_cons_self x _
      · exact List.mem_cons_of_mem s
          (ih x (List.mem_filter.mpr ⟨hx, by simpa using hxs⟩) hlen)
  | case3 s rest h ih =>
    intro x hx hlen
    rw [firstKeep, if_neg h]
    rcases List.mem_cons.mp hx with rfl | hx
    · exact absurd hlen h
    · exact ih x hx hlen

theorem cleanLines_eq_firstKeep (l : List String) : ∀ seen : List String,
    cleanLines seen l
      = firstKeep ((l.map pyStrip).filter (fun t => !(seen.contains t))) := by
  induction l with
  | nil => intro seen; simp [cleanLines, firstKeep]
  | cons ln rest ih =>
    intro seen
    by_cases hlen : (pyStrip ln).length < 3
    · by_cases hc : seen.contains (pyStrip ln)
      · have e2 : ((ln :: rest).map pyStrip).filter (fun t => !seen.contains t)
            = (rest.map pyStrip).filter (fun t => !seen.contains t) := by
          rw [List.map_cons, List.filter_cons, if_neg (by rw [hc]; simp)]
        rw [cleanLines, if_pos hlen, e2]
        exact ih seen
      · have hc' : seen.contains (pyStrip ln) = false :=
          Bool.eq_false_iff.mpr hc
        have e2 : ((ln :: rest).map pyStrip).filter (fun t => !seen.contains t)
            = pyStrip ln ::
                (rest.map pyStrip).filter (fun t => !seen.contains t) := by
          rw [List.map_cons, List.filter_cons, if_pos (by rw [hc']; simp)]
        rw [cleanLines, if_pos hlen, e2, firstKeep, if_neg (by omega)]
        exact ih seen
    · by_cases hc : seen.contains (pyStrip ln)
      · have e2 : ((ln :: rest).map pyStrip).filter (fun t => !seen.contains t)
            = (rest.map pyStrip).filter (fun t => !seen.contains t) := by
          rw [List.map_cons, List.filter_cons, if_neg (by rw [hc]; simp)]
        rw [cleanLines, if_neg hlen, if_pos hc, e2]
        exact ih seen
      · have hc' : seen.contains (pyStrip ln) = false :=
          Bool.eq_false_iff.mpr hc
        have e2 : ((ln :: rest).map pyStrip).filter (fun t => !seen.contains t)
            = pyStrip ln ::
                (rest.map pyStrip).filter (fun t => !seen.contains t) := by
          rw [List.map_cons, List.filter_cons, if_pos (by rw [hc']; simp)]
        rw [cleanLines, if_neg hlen, if_neg hc, e2, firstKeep,
          if_pos (by omega)]
        congr 1
        rw [ih (pyStrip ln :: seen), List.filter_filter]
        have hfilters :
            (List.map pyStrip rest).filter
                (fun t => !((pyStrip ln :: seen).contains t))
              = (List.map pyStrip rest).filter
                (fun t => decide (t ≠ pyStrip ln) && !(seen.contains t)) := by
          refine List.filter_congr ?_
          intro x hx
          by_cases hxs : x = pyStrip ln <;> simp [hxs, List.contains_cons]
        rw [hfilters]

/-- C2 (amended).  The requirements-parser block extractor emits
exactly the first-occurrence dedup of the stripped walk lines with
minimum length 3: its output is a subsequence of the stripped collected
lines (order preserved), has no duplicates, every emitted line has
trimmed length at least 3, and every collected stripped line of length
at least 3 survives. -/
theorem block_lines_cleaned (siblings : List Node) :
    extract_requirement_lines_from_block siblings
        = firstKeep ((rawWalk siblings).map pyStrip) ∧
    List.Sublist (extract_requirement_lines_from_block siblings)
      ((rawWalk siblings).map pyStrip) ∧
    (extract_requirement_lines_from_block siblings).Nodup ∧
    (∀ s ∈ extract_requirement_lines_from_block siblings,
      3 ≤ (pyStrip s).length) ∧
    (∀ s ∈ (rawWalk siblings).map pyStrip, 3 ≤ s.length →
      s ∈ extract_requirement_lines_from_block siblings) := by
  have he : extract_requirement_lines_from_block siblings
      = firstKeep ((rawWalk siblings).map pyStrip) := by
    unfold extract_requirement_lines_from_block
    rw [cleanLines_eq_firstKeep]
    congr 1
    exact List.filter_eq_self.mpr (fun a _ => by simp)
  refine ⟨he, ?_, ?_, ?_, ?_⟩
  · rw [he]; exact firstKeep_sublist _
  · rw [he]; exact firstKeep_nodup _
  · intro s hs
    rw [he] at hs
    have hlen := mem_firstKeep_length _ s hs
    have hmem := (firstKeep_sublist _).subset hs
    rcases List.mem_map.mp hmem with ⟨a, _, rfl⟩
    rw [pyStrip_idem]
    exact hlen
  · intro s hs hlen
    rw [he]
    exact mem_firstKeep_of_mem _ s hs hlen

theorem block_lines_cleaned_witness :
    "Take MATH 100" ∈ extract_requirement_lines_from_block
      [.tag "p" "Take MATH 100" [] [], .tag "p" "Take MATH 100" [] [],
       .tag "p" "OK" [] []] :=
  (block_lines_cleaned
    [.tag "p" "Take MATH 100" [] [], .tag "p" "Take MATH 100" [] [],
     .tag "p" "OK" [] []]).2.2.2.2 "Take MATH 100" (by decide) (by decide)

/-- C2 (counterexample).  The raw scraper's segmenter also produces
blocks, and those keep lines shorter than 3 characters and exact
duplicates: the claimed invariant fails for the block below, whose
emitted lines are `["OK", "Take MATH 100", "Take MATH 100"]`. -/
theorem block_invariant_counterexample :
    extract_specializations_with_headings
      ⟨none, [.tag "h3" "Major in X" [] [], .tag "h3" "First Year" [] [],
              .tag "p" "OK" [] [], .tag "p" "Take MATH 100" [] [],
              .tag "p" "Take MATH 100" [] []]⟩ "u"
      = [⟨"u", "", "Major in X",
          [⟨"First Year", ["OK", "Take MATH 100", "Take MATH 100"]⟩]⟩] ∧
    ¬ (["OK", "Take MATH 100", "Take MATH 100"] : List String).Nodup ∧
    ("OK" : String).length < 3 := by
  refine ⟨rfl, by decide, by decide⟩

/-! ## C1: heading-terminator behavior of the two walks -/

theorem rawWalk_append_terminator (n : Node)
    (hn : is_block_terminator n = true) :
    ∀ pre post : List Node,
      rawWalk (pre ++ n :: post) = rawWalk pre := by
  intro pre
  induction pre with
  | nil =>
    intro post
    cases n with
    | nstring s => simp [is_block_terminator] at hn
    | tag name text li rows => simp [rawWalk, hn]
  | cons a pre ih =>
    intro post
    cases a with
    | nstring s => simp only [List.cons_append, rawWalk]; exact ih post
    | tag name text li rows =>
      simp only [List.cons_append, rawWalk, List.append_eq]
      by_cases ha : is_block_terminator (.tag name text li rows) = true
      · rw [if_pos ha, if_pos ha]
      · rw [if_neg ha, if_neg ha, ih post]

theorem walkSection_skip_plain_heading (name text : String)
    (li : List String) (rows : List (List String))
    (hname : name = "h3" ∨ name = "h4")
    (hspec : is_specialization_heading text = false)
    (hyear : is_year_heading text = false) :
    ∀ (pre post : List Node) (cy : Option String) (ce : List String),
      walkSection (pre ++ .tag name text li rows :: post) cy ce
        = walkSection (pre ++ post) cy ce := by
  intro pre
  induction pre with
  | nil =>
    intro post cy ce
    rcases hname with rfl | rfl <;>
      simp [walkSection, hspec, hyear]
  | cons a pre ih =>
    intro post cy ce
    cases a with
    | nstring s => simp only [List.cons_append, walkSection]; exact ih post cy ce
    | tag nm tx l2 r2 =>
      simp only [List.cons_append, walkSection, List.append_eq]
      by_cases h1 : ((nm = "h3" || nm = "h4")
          && is_specialization_heading tx) = true
      · rw [if_pos h1, if_pos h1]
      · rw [if_neg h1, if_neg h1]
        by_cases h2 : is_year_heading tx = true
        · rw [if_pos h2, if_pos h2, ih post (some tx) []]
        · rw [if_neg h2, if_neg h2]
          by_cases h3 : ((nm = "p" || nm = "div" || nm = "li")
              && cy.isSome) = true
          · rw [if_pos h3, if_pos h3]
            by_cases h4 : pyStrip tx = ""
            · rw [if_pos h4, if_pos h4, ih post cy ce]
            · rw [if_neg h4, if_neg h4, ih post cy (ce ++ [pyStrip tx])]
          · rw [if_neg h3, if_neg h3, ih post cy ce]

/-- C1 (amended).  In the requirements-parser block walk
(`extract_requirement_lines_from_block`), any `h2`/`h3`/`h4` node ends
the walk there: everything from the terminating heading on (the
heading included) contributes nothing.  In the raw scraper's
multi-section walk (`walkSection`, the loop of
`extract_specializations_with_headings`), an `h3`/`h4` heading
classified neither as a specialization heading nor as a year heading
does NOT end the walk: it is skipped, contributing nothing, and the
walk continues past it. -/
theorem heading_terminator_split :
    (∀ (pre post : List Node) (n : Node), is_block_terminator n = true →
      extract_requirement_lines_from_block (pre ++ n :: post)
        = extract_requirement_lines_from_block pre) ∧
    (∀ (pre post : List Node) (cy : Option String) (ce : List String)
        (name text : String) (li : List String) (rows : List (List String)),
      (name = "h3" ∨ name = "h4") →
      is_specialization_heading text = false →
      is_year_heading text = false →
      walkSection (pre ++ .tag name text li rows :: post) cy ce
        = walkSection (pre ++ post) cy ce) := by
  constructor
  · intro pre post n hn
    unfold extract_requirement_lines_from_block
    rw [rawWalk_append_terminator n hn pre post]
  · intro pre post cy ce name text li rows hname hspec hyear
    exact walkSection_skip_plain_heading name text li rows hname hspec hyear
      pre post cy ce

theorem heading_terminator_split_witness :
    extract_requirement_lines_from_block
        [.tag "p" "Take CPSC 110" [] [], .tag "h2" "Other Section" [] [],
         .tag "p" "hidden" [] []]
      = extract_requirement_lines_from_block [.tag "p" "Take CPSC 110" [] []] ∧
    walkSection
        [.tag "h3" "First Year" [] [], .tag "h3" "Notes" [] [],
         .tag "p" "Take MATH 100" [] []] none []
      = walkSection
        [.tag "h3" "First Year" [] [], .tag "p" "Take MATH 100" [] []]
        none [] :=
  ⟨heading_terminator_split.1 [.tag "p" "Take CPSC 110" [] []]
     [.tag "p" "hidden" [] []] (.tag "h2" "Other Section" [] []) (by decide),
   heading_terminator_split.2 [.tag "h3" "First Year" [] []]
     [.tag "p" "Take MATH 100" [] []] none [] "h3" "Notes" [] []
     (Or.inl rfl) (by decide) (by decide)⟩

/-- C1 (counterexample).  On the raw scraper's multi-section walk the
heading `"Notes"` — classified neither as a new named section nor as a
year boundary — does not terminate the section: content after it is
still collected, where the claim requires the years list to be empty. -/
theorem heading_terminator_counterexample :
    is_specialization_heading "Notes" = false ∧
    is_year_heading "Notes" = false ∧
    extract_specializations_with_headings
      ⟨none, [.tag "h3" "Major in X" [] [], .tag "h3" "Notes" [] [],
              .tag "h3" "First Year" [] [], .tag "p" "Take MATH 100" [] []]⟩
      "u"
      = [⟨"u", "", "Major in X",
          [⟨"First Year", ["Take MATH 100"]⟩]⟩] := by
  refine ⟨by decide, by decide, rfl⟩

/-! ## C10: year-grouping invariants of both walks -/

theorem mem_flushGroup {cy : Option String} {ce : List String}
    {g : YearGroup} (hg : g ∈ flushGroup cy ce) :
    cy = some g.year_label ∧ g.raw_lines = ce ∧ ce ≠ [] := by
  cases cy with
  | none => simp [flushGroup] at hg
  | some y =>
    by_cases hce : ce = []
    · rw [flushGroup, if_pos hce] at hg
      simp at hg
    · rw [flushGroup, if_neg hce] at hg
      rcases List.mem_singleton.mp hg with rfl
      exact ⟨rfl, rfl, hce⟩

theorem walkSection_groups (nodes : List Node) :
    ∀ (cy : Option String) (ce : List String),
      (∀ y, cy = some y → is_year_heading y = true) →
      ∀ g ∈ walkSection nodes cy ce,
        g.raw_lines ≠ [] ∧ is_year_heading g.year_label = true := by
  induction nodes with
  | nil =>
    intro cy ce hcy g hg
    obtain ⟨h1, h2, h3⟩ := mem_flushGroup hg
    exact ⟨h2 ▸ h3, hcy _ h1⟩
  | cons a rest ih =>
    intro cy ce hcy g hg
    cases a with
    | nstring s =>
      rw [walkSection] at hg
      exact ih cy ce hcy g hg
    | tag name text li rows =>
      rw [walkSection] at hg
      by_cases h1 : ((name = "h3" || name = "h4")
          && is_specialization_heading text) = true
      · rw [if_pos h1] at hg
        obtain ⟨ha, hb, hc⟩ := mem_flushGroup hg
        exact ⟨hb ▸ hc, hcy _ ha⟩
      · rw [if_neg h1] at hg
        by_cases h2 : is_year_heading text = true
        · rw [if_pos h2] at hg
          rcases List.mem_append.mp hg with hg | hg
          · obtain ⟨ha, hb, hc⟩ := mem_flushGroup hg
            exact ⟨hb ▸ hc, hcy _ ha⟩
          · exact ih (some text) []
              (fun y hy => by cases hy; exact h2) g hg
        · rw [if_neg h2] at hg
          by_cases h3 : ((name = "p" || name = "div" || name = "li")
              && cy.isSome) = true
          · rw [if_pos h3] at hg
            by_cases h4 : pyStrip text = ""
            · rw [if_pos h4] at hg
              exact ih cy ce hcy g hg
            · rw [if_neg h4] at hg
              exact ih cy (ce ++ [pyStrip text]) hcy g hg
          · rw [if_neg h3] at hg
            exact ih cy ce hcy g hg

theorem walkFallback_groups (nodes : List Node) :
    ∀ (cy : Option String) (ce : List String),
      (∀ y, cy = some y → is_year_heading y = true) →
      ∀ g ∈ walkFallback nodes cy ce,
        g.raw_lines ≠ [] ∧ is_year_heading g.year_label = true := by
  induction nodes with
  | nil =>
    intro cy ce hcy g hg
    obtain ⟨h1, h2, h3⟩ := mem_flushGroup hg
    exact ⟨h2 ▸ h3, hcy _ h1⟩
  | cons a rest ih =>
    intro cy ce hcy g hg
    cases a with
    | nstring s =>
      rw [walkFallback] at hg
      exact ih cy ce hcy g hg
    | tag name text li rows =>
      rw [walkFallback] at hg
      by_cases h2 : is_year_heading text = true
      · rw [if_pos h2] at hg
        rcases List.mem_append.mp hg with hg | hg
        · obtain ⟨ha, hb, hc⟩ := mem_flushGroup hg
          exact ⟨hb ▸ hc, hcy _ ha⟩
        · exact ih (some text) []
            (fun y hy => by cases hy; exact h2) g hg
      · rw [if_neg h2] at hg
        by_cases h3 : ((name = "p" || name = "div" || name = "li")
            && cy.isSome) = true
        · rw [if_pos h3] at hg
          by_cases h4 : pyStrip text = ""
          · rw [if_pos h4] at hg
            exact ih cy ce hcy g hg
          · rw [if_neg h4] at hg
            exact ih cy (ce ++ [pyStrip text]) hcy g hg
        · rw [if_neg h3] at hg
          exact ih cy ce hcy g hg

theorem walkSection_no_year (nodes : List Node)
    (hny : ∀ n ∈ nodes, yearTag n = false) :
    ∀ ce, walkSection nodes none ce = [] := by
  induction nodes with
  | nil => intro ce; rfl
  | cons a rest ih =>
    intro ce
    have hrest : ∀ n ∈ rest, yearTag n = false :=
      fun n hn => hny n (List.mem_cons_of_mem a hn)
    cases a with
    | nstring s => rw [walkSection]; exact ih hrest ce
    | tag name text li rows =>
      have hyear : is_year_heading text = false :=
        hny _ (List.mem_cons_self _ _)
      rw [walkSection]
      by_cases h1 : ((name = "h3" || name = "h4")
          && is_specialization_heading text) = true
      · rw [if_pos h1]; rfl
      · rw [if_neg h1, if_neg (by simp [hyear])]
        by_cases h3 : ((name = "p" || name = "div" || name = "li")
            && (none : Option String).isSome) = true
        · simp at h3
        · rw [if_neg h3]
          exact ih hrest ce

theorem walkFallback_no_year (nodes : List Node)
    (hny : ∀ n ∈ nodes, yearTag n = false) :
    ∀ ce, walkFallback nodes none ce = [] := by
  induction nodes with
  | nil => intro ce; rfl
  | cons a rest ih =>
    intro ce
    have hrest : ∀ n ∈ rest, yearTag n = false :=
      fun n hn => hny n (List.mem_cons_of_mem a hn)
    cases a with
    | nstring s => rw [walkFallback]; exact ih hrest ce
    | tag name text li rows =>
      have hyear : is_year_heading text = false :=
        hny _ (List.mem_cons_self _ _)
      rw [walkFallback, if_neg (by simp [hyear])]
      by_cases h3 : ((name = "p" || name = "div" || name = "li")
          && (none : Option String).isSome) = true
      · simp at h3
      · rw [if_neg h3]
        exact ih hrest ce

theorem walkSection_drop_prefix (pre : List Node)
    (hpre : ∀ n ∈ pre, yearTag n = false ∧ sectionBreakTag n = false) :
    ∀ (rest : List Node) (ce : List String),
      walkSection (pre ++ rest) none ce = walkSection rest none ce := by
  induction pre with
  | nil => intro rest ce; rfl
  | cons a pre ih =>
    intro rest ce
    have hta : yearTag a = false ∧ sectionBreakTag a = false :=
      hpre a (List.mem_cons_self _ _)
    have hpre' : ∀ n ∈ pre, yearTag n = false ∧ sectionBreakTag n = false :=
      fun n hn => hpre n (List.mem_cons_of_mem a hn)
    cases a with
    | nstring s =>
      rw [List.cons_append, walkSection]
      exact ih hpre' rest ce
    | tag name text li rows =>
      rw [List.cons_append, walkSection,
        if_neg (by simpa [sectionBreakTag] using hta.2),
        if_neg (by simpa [yearTag] using hta.1)]
      by_cases h3 : ((name = "p" || name = "div" || name = "li")
          && (none : Option String).isSome) = true
      · simp at h3
      · rw [if_neg h3]
        exact ih hpre' rest ce

theorem walkFallback_drop_prefix (pre : List Node)
    (hpre : ∀ n ∈ pre, yearTag n = false) :
    ∀ (rest : List Node) (ce : List String),
      walkFallback (pre ++ rest) none ce = walkFallback rest none ce := by
  induction pre with
  | nil => intro rest ce; rfl
  | cons a pre ih =>
    intro rest ce
    have hta : yearTag a = false := hpre a (List.mem_cons_self _ _)
    have hpre' : ∀ n ∈ pre, yearTag n = false :=
      fun n hn => hpre n (List.mem_cons_of_mem a hn)
    cases a with
    | nstring s =>
      rw [List.cons_append, walkFallback]
      exact ih hpre' rest ce
    | tag name text li rows =>
      rw [List.cons_append, walkFallback,
        if_neg (by simpa [yearTag] using hta)]
      by_cases h3 : ((name = "p" || name = "div" || name = "li")
          && (none : Option String).isSome) = true
      · simp at h3
      · rw [if_neg h3]
        exact ih hpre' rest ce

/-- C10.  In both the multi-section walk and the whole-page fallback
walk: every emitted sub-group is labeled by a year heading and has a
non-empty list of raw lines; a walk over nodes containing no year
marker produces no group at all, regardless of paragraph content; and
a prefix containing no year marker (and, for the multi-section walk,
no section break) contributes nothing — the walk behaves as if it
started after it. -/
theorem ungrouped_content_dropped :
    (∀ nodes : List Node, ∀ g ∈ walkSection nodes none [],
      g.raw_lines ≠ [] ∧ is_year_heading g.year_label = true) ∧
    (∀ nodes : List Node, ∀ g ∈ walkFallback nodes none [],
      g.raw_lines ≠ [] ∧ is_year_heading g.year_label = true) ∧
    (∀ nodes : List Node, (∀ n ∈ nodes, yearTag n = false) →
      walkSection nodes none [] = []) ∧
    (∀ nodes : List Node, (∀ n ∈ nodes, yearTag n = false) →
      walkFallback nodes none [] = []) ∧
    (∀ pre rest : List Node,
      (∀ n ∈ pre, yearTag n = false ∧ sectionBreakTag n = false) →
      walkSection (pre ++ rest) none [] = walkSection rest none []) ∧
    (∀ pre rest : List Node, (∀ n ∈ pre, yearTag n = false) →
      walkFallback (pre ++ rest) none [] = walkFallback rest none []) := by
  refine ⟨?_, ?_, ?_, ?_, ?_, ?_⟩
  · intro nodes g hg
    exact walkSection_groups nodes none [] (by intro y hy; cases hy) g hg
  · intro nodes g hg
    exact walkFallback_groups nodes none [] (by intro y hy; cases hy) g hg
  · intro nodes h
    exact walkSection_no_year nodes h []
  · intro nodes h
    exact walkFallback_no_year nodes h []
  · intro pre rest h
    exact walkSection_drop_prefix pre h rest []
  · intro pre rest h
    exact walkFallback_drop_prefix pre h rest []

theorem ungrouped_content_dropped_witness :
    walkSection [.tag "p" "120 credits required" [] []] none [] = [] ∧
    walkFallback [.tag "p" "120 credits required" [] []] none [] = [] ∧
    walkSection
        ([.tag "p" "intro text" [] []] ++
          [.tag "h3" "First Year" [] [], .tag "p" "Take MATH 100" [] []])
        none []
      = walkSection
          [.tag "h3" "First Year" [] [], .tag "p" "Take MATH 100" [] []]
          none [] ∧
    walkFallback
        ([.tag "p" "intro text" [] []] ++
          [.tag "h3" "First Year" [] [], .tag "p" "Take MATH 100" [] []])
        none []
      = walkFallback
          [.tag "h3" "First Year" [] [], .tag "p" "Take MATH 100" [] []]
          none [] :=
  ⟨ungrouped_content_dropped.2.2.1 [.tag "p" "120 credits required" [] []]
     (by decide),
   ungrouped_content_dropped.2.2.2.1 [.tag "p" "120 credits required" [] []]
     (by decide),
   ungrouped_content_dropped.2.2.2.2.1 [.tag "p" "intro text" [] []]
     [.tag "h3" "First Year" [] [], .tag "p" "Take MATH 100" [] []]
     (by decide),
   ungrouped_content_dropped.2.2.2.2.2 [.tag "p" "intro text" [] []]
     [.tag "h3" "First Year" [] [], .tag "p" "Take MATH 100" [] []]
     (by decide)⟩

/-! ## C6: whole-page fallback strategy -/

theorem extractSpecsGo_eq_nil (url : String) (nodes : List Node)
    (h : ∀ n ∈ nodes, sectionBreakTag n = false) :
    extractSpecsGo url nodes = [] := by
  induction nodes with
  | nil => rfl
  | cons a rest ih =>
    have hrest : ∀ n ∈ rest, sectionBreakTag n = false :=
      fun n hn => h n (List.mem_cons_of_mem a hn)
    cases a with
    | nstring s => rw [extractSpecsGo]; exact ih hrest
    | tag name text li rows =>
      have ha : sectionBreakTag (.tag name text li rows) = false :=
        h _ (List.mem_cons_self _ _)
      rw [extractSpecsGo, if_neg (by simpa [sectionBreakTag] using ha)]
      exact ih hrest

theorem walkFallback_skip_heading (name text : String) (li : List String)
    (rows : List (List String))
    (hname : name = "h2" ∨ name = "h3" ∨ name = "h4")
    (hyear : is_year_heading text = false) :
    ∀ (pre post : List Node) (cy : Option String) (ce : List String),
      walkFallback (pre ++ .tag name text li rows :: post) cy ce
        = walkFallback (pre ++ post) cy ce := by
  intro pre
  induction pre with
  | nil =>
    intro post cy ce
    rcases hname with rfl | rfl | rfl <;>
      simp [walkFallback, hyear]
  | cons a pre ih =>
    intro post cy ce
    cases a with
    | nstring s =>
      simp only [List.cons_append, walkFallback]
      exact ih post cy ce
    | tag nm tx l2 r2 =>
      simp only [List.cons_append, walkFallback, List.append_eq]
      by_cases h2 : is_year_heading tx = true
      · rw [if_pos h2, if_pos h2, ih post (some tx) []]
      · rw [if_neg h2, if_neg h2]
        by_cases h3 : ((nm = "p" || nm = "div" || nm = "li")
            && cy.isSome) = true
        · rw [if_pos h3, if_pos h3]
          by_cases h4 : pyStrip tx = ""
          · rw [if_pos h4, if_pos h4, ih post cy ce]
          · rw [if_neg h4, if_neg h4, ih post cy (ce ++ [pyStrip tx])]
        · rw [if_neg h3, if_neg h3, ih post cy ce]

/-- C6.  On a page with zero NewNamedSection headings the strategy
selector delegates to the whole-page fallback, which emits exactly one
record; the record's name is the `h1` text when an `h1` exists, else
the stripped non-empty `<title>` string, else the literal `"Program"`;
and in the fallback walk no heading ever terminates: any non-year
heading node is walked over transparently, the walk ending only at
document exhaustion. -/
theorem fallback_single_section (doc : Doc) (url : String)
    (h : ∀ n ∈ doc.nodes, sectionBreakTag n = false) :
    extract_specializations_raw doc url
        = extract_single_specialization_fallback doc url ∧
    (extract_specializations_raw doc url).length = 1 ∧
    (∀ r ∈ extract_specializations_raw doc url,
      r.specialization_name = fallbackName doc) ∧
    (∀ (text : String) (rest : List Node),
      firstH1 doc.nodes = some (text, rest) → fallbackName doc = text) ∧
    (firstH1 doc.nodes = none → ∀ t, doc.title = some t → t ≠ "" →
      fallbackName doc = pyStrip t) ∧
    (firstH1 doc.nodes = none → doc.title = none →
      fallbackName doc = "Program") ∧
    (∀ (name text : String) (li : List String) (rows : List (List String)),
      (name = "h2" ∨ name = "h3" ∨ name = "h4") →
      is_year_heading text = false →
      ∀ (pre post : List Node) (cy : Option String) (ce : List String),
        walkFallback (pre ++ .tag name text li rows :: post) cy ce
          = walkFallback (pre ++ post) cy ce) := by
  have hnil : extract_specializations_with_headings doc url = [] :=
    extractSpecsGo_eq_nil url doc.nodes h
  have hraw : extract_specializations_raw doc url
      = extract_single_specialization_fallback doc url := by
    unfold extract_specializations_raw
    rw [hnil]
    rfl
  refine ⟨hraw, by rw [hraw]; rfl, ?_, ?_, ?_, ?_, ?_⟩
  · intro r hr
    rw [hraw] at hr
    rcases List.mem_singleton.mp hr with rfl
    rfl
  · intro text rest hh
    unfold fallbackName
    rw [hh]
  · intro hh t ht hne
    unfold fallbackName
    rw [hh, ht]
    simp [hne]
  · intro hh ht
    unfold fallbackName
    rw [hh, ht]
  · intro name text li rows hname hyear pre post cy ce
    exact walkFallback_skip_heading name text li rows hname hyear
      pre post cy ce

theorem fallback_single_section_witness :
    extract_specializations_raw ⟨some " T1 ", [.tag "p" "hello" [] []]⟩ "u"
      = extract_single_specialization_fallback
          ⟨some " T1 ", [.tag "p" "hello" [] []]⟩ "u" ∧
    (extract_specializations_raw
        ⟨some " T1 ", [.tag "p" "hello" [] []]⟩ "u").length = 1 ∧
    fallbackName ⟨some " T1 ", [.tag "p" "hello" [] []]⟩ = pyStrip " T1 " ∧
    fallbackName ⟨none, [.tag "h1" "Bachelor of Arts" [] [],
        .tag "p" "x" [] []]⟩ = "Bachelor of Arts" ∧
    fallbackName ⟨none, [.tag "p" "x" [] []]⟩ = "Program" :=
  ⟨(fallback_single_section ⟨some " T1 ", [.tag "p" "hello" [] []]⟩ "u"
      (by decide)).1,
   (fallback_single_section ⟨some " T1 ", [.tag "p" "hello" [] []]⟩ "u"
      (by decide)).2.1,
   (fallback_single_section ⟨some " T1 ", [.tag "p" "hello" [] []]⟩ "u"
      (by decide)).2.2.2.2.1 rfl " T1 " rfl (by decide),
   (fallback_single_section ⟨none, [.tag "h1" "Bachelor of Arts" [] [],
        .tag "p" "x" [] []]⟩ "u" (by decide)).2.2.2.1
     "Bachelor of Arts" [.tag "p" "x" [] []] rfl,
   (fallback_single_section ⟨none, [.tag "p" "x" [] []]⟩ "u"
      (by decide)).2.2.2.2.2.1 rfl rfl⟩

/-! ## C7: termination of the block walk -/

theorem walkStep_halted_fix (nodes : List Node) (m : Nat)
    (acc : List String) :
    (walkStep nodes)^[m] (.halted acc) = .halted acc := by
  induction m with
  | zero => rfl
  | succ m ih => rw [Function.iterate_succ_apply, walkStep, ih]

theorem walkStep_halt_aux (nodes : List Node) :
    ∀ (d i : Nat) (acc : List String), nodes.length - i ≤ d →
      ∃ k, k ≤ d + 1 ∧ (walkStep nodes)^[k] (.running i acc)
        = .halted (acc ++ rawWalk (nodes.drop i)) := by
  intro d
  induction d with
  | zero =>
    intro i acc hd
    have hlen : nodes.length ≤ i := by omega
    refine ⟨1, le_refl 1, ?_⟩
    rw [Function.iterate_one, walkStep, List.getElem?_eq_none hlen,
      List.drop_eq_nil_of_le hlen]
    simp [rawWalk]
  | succ d ih =>
    intro i acc hd
    cases hni : nodes[i]? with
    | none =>
      have hlen : nodes.length ≤ i := List.getElem?_eq_none_iff.mp hni
      refine ⟨1, by omega, ?_⟩
      rw [Function.iterate_one, walkStep, hni,
        List.drop_eq_nil_of_le hlen]
      simp [rawWalk]
    | some n =>
      have hlt : i < nodes.length := (List.getElem?_eq_some_iff.mp hni).1
      have hdrop : nodes.drop i = n :: nodes.drop (i + 1) := by
        rw [List.drop_eq_getElem_cons hlt]
        congr 1
        exact (List.getElem?_eq_some_iff.mp hni).2
      by_cases hterm : is_block_terminator n = true
      · refine ⟨1, by omega, ?_⟩
        simp only [Function.iterate_one, walkStep, hni, if_pos hterm, hdrop]
        cases n with
        | nstring s => simp [is_block_terminator] at hterm
        | tag name text li rows => simp [rawWalk, hterm]
      · obtain ⟨k, hk, hit⟩ := ih (i + 1) (acc ++ collectNode n) (by omega)
        refine ⟨k + 1, by omega, ?_⟩
        rw [Function.iterate_succ_apply]
        simp only [walkStep, hni, if_neg hterm]
        rw [hit, hdrop]
        cases n with
        | nstring s => rw [rawWalk]; simp [collectNode]
        | tag name text li rows =>
          simp [rawWalk, hterm]

/-- C7.  The block walk of `extract_requirement_lines_from_block`
always terminates: from any cursor position the loop reaches the
halted state within (remaining positions + 1) iterations — even when
no terminator heading is ever met — computing exactly the collected
lines of the remaining suffix; after `length + 1` iterations from the
start it has halted with the walk result; and every non-halting
iteration moves the cursor strictly forward by exactly one position. -/
theorem block_walk_terminates (nodes : List Node) :
    (∀ (i : Nat) (acc : List String),
      ∃ k, k ≤ nodes.length - i + 1 ∧
        (walkStep nodes)^[k] (.running i acc)
          = .halted (acc ++ rawWalk (nodes.drop i))) ∧
    ((walkStep nodes)^[nodes.length + 1] (.running 0 [])
      = .halted (rawWalk nodes)) ∧
    (∀ (i : Nat) (acc : List String) (j : Nat) (acc2 : List String),
      walkStep nodes (.running i acc) = .running j acc2 → j = i + 1) := by
  refine ⟨?_, ?_, ?_⟩
  · intro i acc
    exact walkStep_halt_aux nodes (nodes.length - i) i acc (le_refl _)
  · obtain ⟨k, hk, hit⟩ :=
      walkStep_halt_aux nodes nodes.length 0 [] (by omega)
    have hsplit : nodes.length + 1 = (nodes.length + 1 - k) + k := by omega
    rw [hsplit, Function.iterate_add_apply, hit, walkStep_halted_fix]
    simp
  · intro i acc j acc2 hstep
    cases hni : nodes[i]? with
    | none =>
      simp only [walkStep, hni] at hstep
      exact WalkState.noConfusion hstep
    | some n =>
      by_cases hterm : is_block_terminator n = true
      · simp only [walkStep, hni, if_pos hterm] at hstep
        exact WalkState.noConfusion hstep
      · simp only [walkStep, hni, if_neg hterm,
          WalkState.running.injEq] at hstep
        omega

theorem block_walk_terminates_witness :
    (1 : Nat) = 0 + 1 :=
  (block_walk_terminates [.tag "p" "Take MATH 100" [] []]).2.2
    0 [] 1 ["Take MATH 100"] (by decide)

/-! ## C3: the heading matcher as a stable argmin -/

theorem combineBest_assoc (a b c : Option (Nat × Nat)) :
    combineBest (combineBest a b) c = combineBest a (combineBest b c) := by
  cases a with
  | none => rfl
  | some p =>
    cases b with
    | none => rfl
    | some q =>
      cases c with
      | none =>
        show combineBest (if q.2 < p.2 then some q else some p) none
          = combineBest (some p) (some q)
        by_cases h : q.2 < p.2 <;> simp [combineBest, h]
      | some r =>
        by_cases h1 : q.2 < p.2
        · by_cases h2 : r.2 < q.2
          · have h3 : r.2 < p.2 := by omega
            simp [combineBest, h1, h2, h3]
          · simp [combineBest, h1, h2]
        · by_cases h3 : r.2 < p.2
          · by_cases h2 : r.2 < q.2
            · simp [combineBest, h1, h2, h3]
            · exfalso; omega
          · by_cases h2 : r.2 < q.2
            · simp [combineBest, h1, h2, h3]
            · simp [combineBest, h1, h2, h3]

theorem findBestAux_cons (target h : String) (rest : List String) (i : Nat)
    (b : Option (Nat × Nat)) :
    findBestAux target (h :: rest) i b =
      if normalize_text h = "" then findBestAux target rest (i + 1) b
      else if headMatches target (normalize_text h) then
        match b with
        | none => findBestAux target rest (i + 1)
            (some (i, matchScore target (normalize_text h)))
        | some (bi, bs) =>
          if matchScore target (normalize_text h) < bs then
            findBestAux target rest (i + 1)
              (some (i, matchScore target (normalize_text h)))
          else findBestAux target rest (i + 1) (some (bi, bs))
      else findBestAux target rest (i + 1) b := rfl

theorem findBestAux_eq_combine (target : String) (l : List String) :
    ∀ (i : Nat) (b : Option (Nat × Nat)),
      findBestAux target l i b = combineBest b (bestOf target l i) := by
  induction l with
  | nil => intro i b; cases b <;> rfl
  | cons h rest ih =>
    intro i b
    by_cases he : normalize_text h = ""
    · rw [findBestAux_cons, if_pos he, bestOf, if_pos he]
      exact ih (i + 1) b
    · by_cases hm : headMatches target (normalize_text h) = true
      · rw [findBestAux_cons, if_neg he, bestOf, if_neg he, if_pos hm,
          if_pos hm, ← combineBest_assoc]
        cases b with
        | none => exact ih (i + 1) _
        | some p =>
          obtain ⟨bi, bs⟩ := p
          show (if matchScore target (normalize_text h) < bs then
              findBestAux target rest (i + 1)
                (some (i, matchScore target (normalize_text h)))
            else findBestAux target rest (i + 1) (some (bi, bs))) = _
          by_cases hlt : matchScore target (normalize_text h) < bs
          · rw [if_pos hlt]
            have hc : combineBest (some (bi, bs))
                (some (i, matchScore target (normalize_text h)))
                = some (i, matchScore target (normalize_text h)) := by
              simp [combineBest, hlt]
            rw [hc]
            exact ih (i + 1) _
          · rw [if_neg hlt]
            have hc : combineBest (some (bi, bs))
                (some (i, matchScore target (normalize_text h)))
                = some (bi, bs) := by
              simp [combineBest, hlt]
            rw [hc]
            exact ih (i + 1) _
      · rw [findBestAux_cons, if_neg he, bestOf, if_neg he, if_neg hm,
          if_neg hm]
        exact ih (i + 1) b

theorem bestOf_eq_none (target : String) (l : List String) :
    ∀ i, bestOf target l i = none ↔
      ∀ h ∈ l, isCandidate target h = false := by
  induction l with
  | nil => intro i; simp [bestOf]
  | cons h rest ih =>
    intro i
    by_cases he : normalize_text h = ""
    · rw [bestOf, if_pos he, ih (i + 1)]
      constructor
      · intro hall x hx
        rcases List.mem_cons.mp hx with rfl | hx
        · simp [isCandidate, he]
        · exact hall x hx
      · intro hall x hx
        exact hall x (List.mem_cons_of_mem h hx)
    · by_cases hm : headMatches target (normalize_text h) = true
      · rw [bestOf, if_neg he, if_pos hm]
        have hns : ∀ X, combineBest
            (some (i, matchScore target (normalize_text h))) X ≠ none := by
          intro X
          cases X with
          | none => simp [combineBest]
          | some q => simp only [combineBest]; split <;> simp
        constructor
        · intro hcon
          exact absurd hcon (hns _)
        · intro hall
          have := hall h (List.mem_cons_self h rest)
          rw [isCandidate, if_neg he] at this
          rw [this] at hm
          cases hm
      · rw [bestOf, if_neg he, if_neg hm, ih (i + 1)]
        constructor
        · intro hall x hx
          rcases List.mem_cons.mp hx with rfl | hx
          · rw [isCandidate, if_neg he]
            simpa using hm
          · exact hall x hx
        · intro hall x hx
          exact hall x (List.mem_cons_of_mem h hx)

theorem bestOf_spec (target : String) (l : List String) :
    ∀ (i ri rs : Nat), bestOf target l i = some (ri, rs) →
      i ≤ ri ∧
      (∃ h, l.get? (ri - i) = some h ∧ isCandidate target h = true ∧
        rs = matchScore target (normalize_text h)) ∧
      (∀ k h2, l.get? k = some h2 → isCandidate target h2 = true →
        rs ≤ matchScore target (normalize_text h2) ∧
        (matchScore target (normalize_text h2) = rs → ri - i ≤ k)) := by
  induction l with
  | nil => intro i ri rs hbo; simp [bestOf] at hbo
  | cons h rest ih =>
    intro i ri rs hbo
    by_cases he : normalize_text h = ""
    · rw [bestOf, if_pos he] at hbo
      obtain ⟨hle, ⟨h0, hg, hc, hs⟩, hmin⟩ := ih (i + 1) ri rs hbo
      refine ⟨by omega, ⟨h0, ?_, hc, hs⟩, ?_⟩
      · rw [show ri - i = (ri - (i + 1)) + 1 by omega, List.get?_cons_succ]
        exact hg
      · intro k h2 hk hcand
        cases k with
        | zero =>
          simp only [List.get?_cons_zero, Option.some.injEq] at hk
          rw [← hk, isCandidate, if_pos he] at hcand
          cases hcand
        | succ k =>
          rw [List.get?_cons_succ] at hk
          obtain ⟨hle2, htie⟩ := hmin k h2 hk hcand
          exact ⟨hle2, fun he2 => by have := htie he2; omega⟩
    · by_cases hm : headMatches target (normalize_text h) = true
      · rw [bestOf, if_neg he, if_pos hm] at hbo
        have hcand_h : isCandidate target h = true := by
          rw [isCandidate, if_neg he]; exact hm
        cases hR : bestOf target rest (i + 1) with
        | none =>
          rw [hR] at hbo
          have hpair : i = ri ∧ matchScore target (normalize_text h) = rs := by
            simpa [combineBest] using hbo
          obtain ⟨rfl, rfl⟩ := hpair
          refine ⟨le_refl i, ⟨h, by simp, hcand_h, rfl⟩, ?_⟩
          intro k h2 hk hcand
          cases k with
          | zero =>
            simp only [List.get?_cons_zero, Option.some.injEq] at hk
            subst hk
            exact ⟨le_refl _, fun _ => by omega⟩
          | succ k =>
            rw [List.get?_cons_succ] at hk
            have := (bestOf_eq_none target rest (i + 1)).mp hR h2
              (List.get?_mem hk)
            rw [this] at hcand
            cases hcand
        | some p =>
          obtain ⟨rj, rss⟩ := p
          rw [hR] at hbo
          obtain ⟨hle, ⟨h0, hg, hc, hs⟩, hmin⟩ := ih (i + 1) rj rss hR
          by_cases hlt : rss < matchScore target (normalize_text h)
          · have hpair : rj = ri ∧ rss = rs := by
              simpa [combineBest, hlt] using hbo
            obtain ⟨rfl, rfl⟩ := hpair
            refine ⟨by omega, ⟨h0, ?_, hc, hs⟩, ?_⟩
            · rw [show rj - i = (rj - (i + 1)) + 1 by omega,
                List.get?_cons_succ]
              exact hg
            · intro k h2 hk hcand
              cases k with
              | zero =>
                simp only [List.get?_cons_zero, Option.some.injEq] at hk
                subst hk
                exact ⟨by omega, fun he2 => by omega⟩
              | succ k =>
                rw [List.get?_cons_succ] at hk
                obtain ⟨hle2, htie⟩ := hmin k h2 hk hcand
                exact ⟨hle2, fun he2 => by have := htie he2; omega⟩
          · have hpair : i = ri ∧ matchScore target (normalize_text h) = rs := by
              simpa [combineBest, hlt] using hbo
            obtain ⟨rfl, rfl⟩ := hpair
            refine ⟨le_refl i, ⟨h, by simp, hcand_h, rfl⟩, ?_⟩
            intro k h2 hk hcand
            cases k with
            | zero =>
              simp only [List.get?_cons_zero, Option.some.injEq] at hk
              subst hk
              exact ⟨le_refl _, fun _ => by omega⟩
            | succ k =>
              rw [List.get?_cons_succ] at hk
              obtain ⟨hle2, _⟩ := hmin k h2 hk hcand
              exact ⟨by omega, fun _ => by omega⟩
      · rw [bestOf, if_neg he, if_neg hm] at hbo
        obtain ⟨hle, ⟨h0, hg, hc, hs⟩, hmin⟩ := ih (i + 1) ri rs hbo
        refine ⟨by omega, ⟨h0, ?_, hc, hs⟩, ?_⟩
        · rw [show ri - i = (ri - (i + 1)) + 1 by omega, List.get?_cons_succ]
          exact hg
        · intro k h2 hk hcand
          cases k with
          | zero =>
            simp only [List.get?_cons_zero, Option.some.injEq] at hk
            rw [← hk, isCandidate, if_neg he] at hcand
            rw [hcand] at hm
            cases hm rfl
          | succ k =>
            rw [List.get?_cons_succ] at hk
            obtain ⟨hle2, htie⟩ := hmin k h2 hk hcand
            exact ⟨hle2, fun he2 => by have := htie he2; omega⟩

theorem containsSub_iff (a : List Char) :
    ∀ b : List Char, containsSub a b = true ↔ a <:+: b := by
  intro b
  induction b with
  | nil =>
    rw [containsSub]
    constructor
    · intro h
      have ha : a = [] := List.isEmpty_iff.mp h
      subst ha
      exact List.nil_infix
    · intro h
      have ha : a = [] := List.infix_nil.mp h
      subst ha
      rfl
  | cons c rest ih =>
    rw [containsSub]
    constructor
    · intro h
      rcases Bool.or_eq_true_iff.mp h with h | h
      · exact (List.isPrefixOf_iff_prefix.mp h).isInfix
      · exact (ih.mp h).trans (List.IsSuffix.isInfix (List.suffix_cons c rest))
    · intro h
      rcases List.infix_cons_iff.mp h with h | h
      · exact Bool.or_eq_true_iff.mpr
          (Or.inl (List.isPrefixOf_iff_prefix.mpr h))
      · exact Bool.or_eq_true_iff.mpr (Or.inr (ih.mpr h))

/-- C3 (amended).  The heading matcher returns a heading index if and
only if some heading is a candidate — its normalized text is NON-EMPTY
and equals the normalized target or one contains the other as a
substring (`containsSub` is exactly list containment, last conjunct);
a returned index points at a candidate whose score
`abs(len(text) - len(target))` is minimal among all candidates, and on
score ties the returned candidate is the earliest in encounter order.
(The original claim omitted the non-emptiness condition: a
whitespace-only heading normalizes to the empty string, which is a
substring of every target, yet is skipped by the matcher.) -/
theorem heading_matcher_spec (headings : List String) (name : String) :
    (find_specialization_heading headings name = none ↔
      ∀ h ∈ headings, isCandidate (normalize_text name) h = false) ∧
    (∀ i, find_specialization_heading headings name = some i →
      ∃ h, headings.get? i = some h ∧
        isCandidate (normalize_text name) h = true ∧
        ∀ k h2, headings.get? k = some h2 →
          isCandidate (normalize_text name) h2 = true →
          matchScore (normalize_text name) (normalize_text h)
            ≤ matchScore (normalize_text name) (normalize_text h2) ∧
          (matchScore (normalize_text name) (normalize_text h2)
              = matchScore (normalize_text name) (normalize_text h) →
            i ≤ k)) ∧
    (∀ a b : String, containsSub a.data b.data = true ↔ a.data <:+: b.data) := by
  have hfind : find_specialization_heading headings name
      = (bestOf (normalize_text name) headings 0).map Prod.fst := by
    unfold find_specialization_heading
    rw [findBestAux_eq_combine]
    rfl
  refine ⟨?_, ?_, fun a b => containsSub_iff a.data b.data⟩
  · rw [hfind]
    constructor
    · intro hnone
      have : bestOf (normalize_text name) headings 0 = none := by
        cases hb : bestOf (normalize_text name) headings 0 with
        | none => rfl
        | some p => rw [hb] at hnone; simp at hnone
      exact (bestOf_eq_none (normalize_text name) headings 0).mp this
    · intro hall
      rw [(bestOf_eq_none (normalize_text name) headings 0).mpr hall]
      rfl
  · intro i hi
    rw [hfind] at hi
    obtain ⟨⟨ri, rs⟩, hb, hfst⟩ := Option.map_eq_some'.mp hi
    simp only at hfst
    subst hfst
    obtain ⟨_, ⟨h, hg, hc, hs⟩, hmin⟩ :=
      bestOf_spec (normalize_text name) headings 0 ri rs hb
    rw [Nat.sub_zero] at hg
    refine ⟨h, hg, hc, ?_⟩
    intro k h2 hk hcand
    obtain ⟨hle2, htie⟩ := hmin k h2 hk hcand
    rw [← hs]
    exact ⟨hle2, fun he2 => by have := htie he2; omega⟩

theorem heading_matcher_spec_witness :
    find_specialization_heading ["zzz"] "Major in Arts" = none ∧
    (∃ h, ["Major in Computer Science", "Minor in Statistics"].get? 0
        = some h ∧
      isCandidate (normalize_text "Computer Science") h = true ∧
      ∀ k h2, ["Major in Computer Science", "Minor in Statistics"].get? k
          = some h2 →
        isCandidate (normalize_text "Computer Science") h2 = true →
        matchScore (normalize_text "Computer Science") (normalize_text h)
          ≤ matchScore (normalize_text "Computer Science")
              (normalize_text h2) ∧
        (matchScore (normalize_text "Computer Science") (normalize_text h2)
            = matchScore (normalize_text "Computer Science")
                (normalize_text h) → 0 ≤ k)) :=
  ⟨(heading_matcher_spec ["zzz"] "Major in Arts").1.mpr (by decide),
   (heading_matcher_spec ["Major in Computer Science", "Minor in Statistics"]
      "Computer Science").2.1 0 (by decide)⟩

/-- C3 (counterexample).  A whitespace-only heading normalizes to the
empty string, which IS a substring of the normalized target, yet the
matcher returns none — refuting the claim's "if and only if". -/
theorem heading_matcher_counterexample :
    find_specialization_heading [" "] "x" = none ∧
    normalize_text " " = "" ∧
    (normalize_text " ").data <:+: (normalize_text "x").data := by
  refine ⟨by decide, by decide, ?_⟩
  have h1 : (normalize_text " ").data = [] := by decide
  rw [h1]
  exact List.nil_infix

/-! ## C8: malformed course headings and the number filter -/

theorem reqTake_fst_ne_nil (p : Char → Bool) (l t r : List Char)
    (h : reqTake p l = some (t, r)) : t ≠ [] := by
  unfold reqTake at h
  split at h
  · exact Option.noConfusion h
  · rename_i hne
    have ht : l.takeWhile p = t :=
      congrArg Prod.fst (Option.some.inj h)
    intro hnil
    rw [ht, hnil] at hne
    simp at hne

theorem parseCourseRegex_number_ne (l : List Char) (m : CourseHeadingMatch)
    (h : parseCourseRegex l = some m) : m.number ≠ "" := by
  unfold parseCourseRegex at h
  repeat
    first
    | (split at h <;> try exact Option.noConfusion h)
    | simp only [] at h
  all_goals
    rw [Option.some.injEq] at h
    subst h
    intro hc
    have h2 := congrArg String.data hc
    have hre : ("" : String).data = ([] : List Char) := rfl
    simp only [List.asString, hre] at h2
    exact reqTake_fst_ne_nil isDigitAscii _ _ _ (by assumption)
      (List.append_eq_nil.mp h2).1

theorem extract_course_block_number (t : String) (rest : List Node) :
    (extract_course_block t rest).course_number
      = (parse_course_heading t).number := by
  unfold extract_course_block
  rfl

theorem parse_course_heading_number (t : String) :
    (parse_course_heading t).number = none ∨
      ∃ n, (parse_course_heading t).number = some n ∧ n ≠ "" := by
  rcases hp : parseCourseRegex (pyJoinSplit t).data with _ | m
  · left
    unfold parse_course_heading
    rw [hp]
  · right
    refine ⟨m.number, ?_, parseCourseRegex_number_ne _ m hp⟩
    unfold parse_course_heading
    rw [hp]

theorem parse_subject_page_eq_filter (nodes : List Node) :
    parse_subject_page nodes
      = (course_candidates nodes).filter (fun c => c.course_number.isSome) := by
  induction nodes with
  | nil => rfl
  | cons a rest ih =>
    cases a with
    | nstring s =>
      rw [parse_subject_page, course_candidates]
      exact ih
    | tag name text li rows =>
      by_cases hcond : (name = "h3" && containsDigit text) = true
      · rw [parse_subject_page, if_pos hcond, course_candidates,
          if_pos hcond, List.filter_cons]
        rcases parse_course_heading_number text with hn | ⟨n, hn, hne⟩
        · have hc : (extract_course_block text rest).course_number = none := by
            rw [extract_course_block_number, hn]
          rw [if_neg (by rw [hc]; simp), if_neg (by rw [hc]; simp)]
          exact ih
        · have hc : (extract_course_block text rest).course_number
              = some n := by
            rw [extract_course_block_number, hn]
          rw [if_pos (by rw [hc]; simpa using hne),
            if_pos (by rw [hc]; simp), ih]
      · rw [parse_subject_page, if_neg hcond, course_candidates,
          if_neg hcond]
        exact ih

/-- C8.  When the course-heading regex misses, `parse_course_heading`
still returns a record: all four structured fields are null and the
(whitespace-collapsed) heading text is kept as the title; and a course
record is appended to the subject page's output exactly when its
course number field is present after parsing (`parse_subject_page` is
the candidate list filtered on a present course number). -/
theorem course_heading_error_handling :
    (∀ s : String, parseCourseRegex (pyJoinSplit s).data = none →
      parse_course_heading s = ⟨none, none, none, none, pyJoinSplit s⟩) ∧
    (∀ nodes : List Node, parse_subject_page nodes
      = (course_candidates nodes).filter (fun c => c.course_number.isSome)) := by
  constructor
  · intro s hm
    unfold parse_course_heading
    rw [hm]
  · exact parse_subject_page_eq_filter

theorem course_heading_error_handling_witness :
    parse_course_heading "Introduction to Things"
      = ⟨none, none, none, none, pyJoinSplit "Introduction to Things"⟩ ∧
    parse_subject_page
        [.tag "h3" "About 2024" [] [],
         .tag "h3" "CPSC 110 (3) Computation" [] [], .tag "p" "Desc" [] []]
      = (course_candidates
          [.tag "h3" "About 2024" [] [],
           .tag "h3" "CPSC 110 (3) Computation" [] [],
           .tag "p" "Desc" [] []]).filter
          (fun c => c.course_number.isSome) :=
  ⟨course_heading_error_handling.1 "Introduction to Things" (by decide),
   course_heading_error_handling.2
     [.tag "h3" "About 2024" [] [],
      .tag "h3" "CPSC 110 (3) Computation" [] [], .tag "p" "Desc" [] []]⟩

/-! ## C9: oracle failure is recovered per record -/

/-- C9.  When the page was fetched and the heading matched but the
structuring oracle raises (network failure or `json.loads` failure on
a non-JSON reply), the one record recovers: its parsed field is null,
its raw extracted lines are retained, the record is still produced,
and the batch loop processes the surrounding records untouched. -/
theorem oracle_failure_recovered {α : Type}
    (fetcher : String → Except String Doc)
    (oracle : List String → Except String (OracleOut α))
    (spec : SpecIn) (doc : Doc) (i : Nat) (e : String)
    (hf : fetcher spec.program_url = .ok doc)
    (hh : find_heading_node doc.nodes spec.specialization_name = some i)
    (hraw : extract_requirement_lines_from_block (doc.nodes.drop (i + 1))
      ≠ [])
    (ho : oracle
        (extract_requirement_lines_from_block (doc.nodes.drop (i + 1)))
      = .error e) :
    (process_specialization fetcher oracle true spec).requirements_parsed
        = none ∧
    (process_specialization fetcher oracle true spec).requirements_raw
        = extract_requirement_lines_from_block (doc.nodes.drop (i + 1)) ∧
    (∀ pre post : List SpecIn,
      processBatch fetcher oracle true (pre ++ spec :: post)
        = processBatch fetcher oracle true pre
            ++ process_specialization fetcher oracle true spec
              :: processBatch fetcher oracle true post) := by
  have hempty : (extract_requirement_lines_from_block
      (doc.nodes.drop (i + 1))).isEmpty = false := by
    cases hc : (extract_requirement_lines_from_block
        (doc.nodes.drop (i + 1))).isEmpty
    · rfl
    · exact absurd (List.isEmpty_iff.mp hc) hraw
  have hps : process_specialization fetcher oracle true spec
      = ⟨spec.program_url, spec.specialization_name,
         extract_requirement_lines_from_block (doc.nodes.drop (i + 1)),
         none⟩ := by
    simp only [process_specialization, hf, hh, hempty, ho, Bool.true_and,
      Bool.not_false, if_pos]
  refine ⟨by rw [hps], by rw [hps], ?_⟩
  intro pre post
  unfold processBatch
  rw [List.map_append, List.map_cons]

theorem oracle_failure_recovered_witness :
    (process_specialization
        (fun _ => Except.ok
          (⟨none, [.tag "h2" "Major in X" [] [],
                   .tag "p" "Take MATH 100" [] []]⟩ : Doc))
        (fun _ => (Except.error "bad json" :
          Except String (OracleOut Unit)))
        true ⟨"u", "Major in X"⟩).requirements_parsed = none ∧
    (process_specialization
        (fun _ => Except.ok
          (⟨none, [.tag "h2" "Major in X" [] [],
                   .tag "p" "Take MATH 100" [] []]⟩ : Doc))
        (fun _ => (Except.error "bad json" :
          Except String (OracleOut Unit)))
        true ⟨"u", "Major in X"⟩).requirements_raw = ["Take MATH 100"] := by
  have h := oracle_failure_recovered
    (fun _ => Except.ok
      (⟨none, [.tag "h2" "Major in X" [] [],
               .tag "p" "Take MATH 100" [] []]⟩ : Doc))
    (fun _ => (Except.error "bad json" : Except String (OracleOut Unit)))
    ⟨"u", "Major in X"⟩
    ⟨none, [.tag "h2" "Major in X" [] [], .tag "p" "Take MATH 100" [] []]⟩
    0 "bad json" rfl (by decide) (by decide) rfl
  exact ⟨h.1, by rw [h.2.1]; decide⟩

end DegreePlanner

